import Mathlib

/-!
Verification of the relevance/duplicate detection and reconciliation pipeline
of the Promotion CBT question-bank maintenance scripts.

The Python sources embedded here (shallowly, as pure Lean functions over an
explicit in-memory corpus) are:
  * `scripts/audit_question_quality.py`   (normalizer, loader, duplicate
    detector, relevance scorer)
  * `scripts/cleanup_duplicates_safe.py`  (same-subcategory duplicate cleanup)
  * `scripts/process_relevance_queue_batch.py` (batch mover/remover)
  * `scripts/reconcile_relevance_moves.py` (reconciler)

JSON documents are embedded as records; the two on-disk question-list shapes
(flat list vs one-element list holding a map from the subcategory's own id to
the actual list) are embedded as a tagged variant.  Python dictionaries keyed
by strings are embedded as association lists (last insertion wins, as in
Python, where it matters).  File I/O for the loader is embedded as a finite
map from path to file content, with a `malformed` content standing for a file
whose bytes `json.load` rejects.
-/

namespace PromoCBT

/-! ### Text normalizer

`normalize_text` appears verbatim in all four scripts:

    text = (text or "").lower()
    text = re.sub(r"[^a-z0-9\s]", " ", text)
    text = re.sub(r"\s+", " ", text).strip()

Strings are embedded as `List Char`.  `str.lower` is embedded as the ASCII
case mapping (code points 65-90 shifted up by 32); Python's full Unicode case
mapping differs only on code points outside `[a-z0-9]` after lowering, all of
which the second step replaces by a space in either embedding.  `\s` is the
whitespace class Python's `re` uses for `str` patterns. -/

/-- Python regex `\s` class for text patterns (`re.UNICODE` is the default):
the White_Space code points plus U+001C..U+001F and U+0085. -/
def pyIsSpace (c : Char) : Bool :=
  decide (c.toNat = 32 ∨ (9 ≤ c.toNat ∧ c.toNat ≤ 13) ∨ (28 ≤ c.toNat ∧ c.toNat ≤ 31) ∨
    c.toNat = 133 ∨ c.toNat = 160 ∨ c.toNat = 5760 ∨ (8192 ≤ c.toNat ∧ c.toNat ≤ 8202) ∨
    c.toNat = 8232 ∨ c.toNat = 8233 ∨ c.toNat = 8239 ∨ c.toNat = 8287 ∨ c.toNat = 12288)

/-- Membership in the character class `[a-z0-9]`. -/
def isLowerAlnum (c : Char) : Bool :=
  decide ((97 ≤ c.toNat ∧ c.toNat ≤ 122) ∨ (48 ≤ c.toNat ∧ c.toNat ≤ 57))

/-- `str.lower`, embedded as the ASCII case mapping (see header comment). -/
def pyLowerChar (c : Char) : Char :=
  if 65 ≤ c.toNat ∧ c.toNat ≤ 90 then Char.ofNat (c.toNat + 32) else c

/-- One character of `re.sub(r"[^a-z0-9\s]", " ", text)`: a character that is
neither `[a-z0-9]` nor whitespace becomes a space. -/
def keepAlnumSpace (c : Char) : Char :=
  if isLowerAlnum c || pyIsSpace c then c else ' '

/-- `re.sub(r"\s+", " ", text)`: every maximal run of whitespace becomes one
space. -/
def collapseWs : List Char → List Char
  | [] => []
  | [c] => if pyIsSpace c then [' '] else [c]
  | c1 :: c2 :: rest =>
    if pyIsSpace c1 && pyIsSpace c2 then collapseWs (c2 :: rest)
    else (if pyIsSpace c1 then ' ' else c1) :: collapseWs (c2 :: rest)

/-- `str.strip()`: drop leading and trailing whitespace. -/
def pyStrip (l : List Char) : List Char :=
  ((l.dropWhile pyIsSpace).reverse.dropWhile pyIsSpace).reverse

/-- `normalize_text` on character lists. -/
def normalize_text (l : List Char) : List Char :=
  pyStrip (collapseWs ((l.map pyLowerChar).map keepAlnumSpace))

/-- `normalize_text` on strings. -/
def normalizeStr (s : String) : String :=
  ⟨normalize_text s.data⟩

/-- `str.strip()` on strings (used on raw ids and question texts). -/
def stripStr (s : String) : String :=
  ⟨pyStrip s.data⟩

/-- The fixed stopword set of `audit_question_quality.py`. -/
def STOPWORDS : List String :=
  ["a", "an", "and", "are", "as", "at", "be", "by", "for", "from", "in", "is",
   "it", "of", "on", "or", "that", "the", "to", "was", "were", "what", "which",
   "who", "with"]

/-- `norm.split()`: split on whitespace runs, dropping empty pieces. -/
def splitWords (l : List Char) : List String :=
  ((l.splitOnP pyIsSpace).map (fun w => (⟨w⟩ : String))).filter (fun w => w ≠ "")

/-- `tokenize(text)`: normalize, split, drop empty tokens and stopwords. -/
def tokenize (s : String) : List String :=
  (splitWords (normalizeStr s).data).filter (fun t => decide (t ≠ "" ∧ t ∉ STOPWORDS))

/-- `" ".join(parts)`. -/
def joinSpace (parts : List String) : String :=
  String.intercalate " " parts

/-! ### Data model

A question document; only the fields the pipeline reads are carried
(`options`, `correct`, `explanation`, `difficulty`, `source` are moved
wholesale but never inspected). -/

structure Question where
  id : String
  question : String
  keywords : List String
  chapter : String
  deriving DecidableEq, Repr, Inhabited

/-- The `questions` entry of a subcategory document.  `flat` is the ordinary
shape; `nestedByOwnId qs` embeds the legacy shape
`"questions": [ { <subcategory id> : qs } ]` (the structural test of
`iterate_subcategory_questions` / `safe_get_questions` succeeds exactly for a
one-element list whose element maps the subcategory's own, non-empty, id to a
list). -/
inductive QuestionsField where
  | flat (qs : List Question)
  | nestedByOwnId (qs : List Question)
  deriving DecidableEq, Repr

/-- Replace the question list, keeping the on-disk shape: the nested branch is
`sub["questions"][0][sub_id] = qs`, the flat branch `sub["questions"] = qs`. -/
def QuestionsField.set : QuestionsField → List Question → QuestionsField
  | .flat _, qs => .flat qs
  | .nestedByOwnId _, qs => .nestedByOwnId qs

structure Subcategory where
  id : String
  name : String
  questions : QuestionsField
  deriving DecidableEq, Repr

structure TopicDoc where
  subcategories : List Subcategory
  deriving DecidableEq, Repr

/-- One topic of the index together with its loaded backing document (the
in-memory state after `load_topic_data`). -/
structure TopicEntry where
  topic_id : String
  topic_name : String
  file : String
  doc : TopicDoc
  deriving DecidableEq, Repr

abbrev Corpus := List TopicEntry

/-- `iterate_subcategory_questions(sub)`: the effective question list and the
nested-shape flag, re-derived per subcategory by structural inspection. -/
def iterate_subcategory_questions (sub : Subcategory) : List Question × Bool :=
  match sub.questions with
  | .nestedByOwnId qs => (qs, true)
  | .flat qs => (qs, false)

/-- The effective question list of a subcategory. -/
def qlistOf (sub : Subcategory) : List Question :=
  (iterate_subcategory_questions sub).1

/-- The nested-shape tag of a subcategory. -/
def shapeTag (sub : Subcategory) : Bool :=
  (iterate_subcategory_questions sub).2

/-- The shape tags of every subcategory of every topic of a corpus, in
order. -/
def tagsOf (c : Corpus) : List (List Bool) :=
  c.map (fun t => t.doc.subcategories.map shapeTag)

/-! ### Corpus Loader (`audit_question_quality.py`)

The filesystem is a finite map from path to file content; a path absent from
the map models `path.exists()` returning `False`, `malformed` models bytes
that `json.load` raises on. -/

/-- One topic of the topic index: `{id, name, file}` (`""` for an absent or
empty `file` entry, which is falsy in Python). -/
structure TopicMeta where
  id : String
  name : String
  file : String
  deriving DecidableEq, Repr

inductive FileContent where
  /-- A file present on disk whose contents `json.load` rejects. -/
  | malformed
  /-- A parsed JSON document shaped like the topic index (`{"topics": [...]}`). -/
  | topicIndex (topics : List TopicMeta)
  /-- A parsed JSON document shaped like a per-topic question file
  (`{"subcategories": [...]}`). -/
  | topicFile (doc : TopicDoc)
  deriving DecidableEq, Repr

abbrev FS := List (String × FileContent)

/-- Path lookup (`none` models a missing file). -/
def lookupFS (fs : FS) (path : String) : Option FileContent :=
  (fs.find? (fun p => p.1 == path)).map (·.2)

/-- `QEntry`: the flattened projection built by `collect_entries`. -/
structure QEntry where
  topic_id : String
  topic_name : String
  subcategory_id : String
  subcategory_name : String
  question_id : String
  question : String
  keywords : List String
  chapter : String
  source_file : String
  norm_question : String
  tokens : List String
  deriving DecidableEq, Repr

/-- The `QEntry` record built for one raw question. -/
def mkQEntry (tid tname sid sname rel : String) (q : Question) : QEntry :=
  let qtext := stripStr q.question
  { topic_id := tid
    topic_name := tname
    subcategory_id := sid
    subcategory_name := sname
    question_id := stripStr q.id
    question := qtext
    keywords := q.keywords
    chapter := stripStr q.chapter
    source_file := rel
    norm_question := normalizeStr qtext
    tokens := tokenize qtext }

/-- The entries contributed by one loaded topic document (`safe_get_questions`
yields the effective question list for either on-disk shape). -/
def entriesOfTopic (t : TopicMeta) (doc : TopicDoc) : List QEntry :=
  doc.subcategories.flatMap fun sub =>
    (qlistOf sub).map (mkQEntry t.id t.name sub.id sub.name t.file)

/-- `collect_entries()`: load the index, then every declared topic's backing
file.  A topic whose `file` entry is falsy, or whose backing file is absent,
is skipped; a backing file that is present but malformed raises (the script
has no handler, so the run aborts); the topic-index file missing or malformed
is fatal.  An index-shaped document at a topic path has no `subcategories`
key and contributes nothing; a topic-file-shaped document at the index path
has no `topics` key and declares no topics. -/
def collect_entries (fs : FS) (topicsPath : String) : Except String (List QEntry) := do
  let topics ←
    match lookupFS fs topicsPath with
    | none => Except.error "topics index missing"
    | some .malformed => Except.error "topics index malformed"
    | some (.topicIndex ts) => Except.ok ts
    | some (.topicFile _) => Except.ok []
  topics.foldlM (fun acc t =>
    if t.file = "" then pure acc
    else
      match lookupFS fs t.file with
      | none => pure acc
      | some .malformed => Except.error "topic file malformed"
      | some (.topicIndex _) => pure acc
      | some (.topicFile doc) => pure (acc ++ entriesOfTopic t doc)) []

/-! ### Relevance Scorer (`audit_question_quality.py`, `build_audit`) -/

/-- The fixed hand-authored hint-keyword table `TOPIC_HINTS`. -/
def TOPIC_HINTS : List (String × List String) :=
  [("psr", ["psr", "probation", "promotion", "leave", "misconduct", "officer", "gl", "appointment"]),
   ("financial_regulations", ["budget", "virement", "treasury", "vote", "expenditure", "imprest", "warrant", "fr"]),
   ("procurement_act", ["procurement", "bid", "tender", "contract", "bpp", "vendor", "evaluation", "award"]),
   ("constitutional_law", ["constitution", "foi", "court", "legal", "statutory", "rights", "law"]),
   ("civil_service_admin", ["ethics", "integrity", "grievance", "conduct", "discipline", "service", "administration"]),
   ("leadership_management", ["leadership", "strategic", "management", "negotiation", "dispute", "union"]),
   ("ict_management", ["ict", "digital", "cyber", "e-governance", "security", "technology"]),
   ("policy_analysis", ["policy", "formulation", "implementation", "evaluation", "planning"]),
   ("general_current_affairs", ["current", "recent", "today", "year", "affairs", "news", "international"]),
   ("competency_framework", ["numerical", "verbal", "reasoning", "analytical", "logic", "comprehension"])]

/-- `dict.get(k, default)` on an association list read in insertion order. -/
def assocGetD {α : Type} (l : List (String × α)) (k : String) (d : α) : α :=
  ((l.find? (fun p => p.1 == k)).map (·.2)).getD d

/-- Key list of a `defaultdict` in insertion order: first occurrences, in
order. -/
def firstDedup {α : Type} [DecidableEq α] (l : List α) : List α :=
  l.foldl (fun acc x => if x ∈ acc then acc else acc ++ [x]) []

/-- `topic_profile_tokens(entries)[tid]`: union over the topic's entries of
the tokenized topic name, tokenized subcategory names and the hint set. -/
def topicProfile (entries : List QEntry) (tid : String) : Finset String :=
  entries.foldl
    (fun acc e =>
      if e.topic_id = tid then
        ((acc ∪ (tokenize e.topic_name).toFinset) ∪ (tokenize e.subcategory_name).toFinset) ∪
          (assocGetD TOPIC_HINTS tid []).toFinset
      else acc) ∅

/-- The keys of `topic_profile_tokens(entries)` in insertion order. -/
def topicIdsInOrder (entries : List QEntry) : List String :=
  firstDedup (entries.map (·.topic_id))

/-- `subcategory_profile_tokens(entries)[(tid, sid)]`. -/
def subcatProfile (entries : List QEntry) (key : String × String) : Finset String :=
  entries.foldl
    (fun acc e =>
      if (e.topic_id, e.subcategory_id) = key then
        acc ∪ (tokenize e.subcategory_name).toFinset
      else acc) ∅

/-- `overlap_score(question_tokens, profile_tokens)`. -/
def overlap_score (qT : Finset String) (profile : Finset String) : ℕ :=
  (qT ∩ profile).card

/-- The combined token set of one entry:
`set(e.tokens + tokenize(" ".join(e.keywords)) + tokenize(e.chapter))`. -/
def qTokensOf (e : QEntry) : Finset String :=
  (e.tokens ++ tokenize (joinSpace e.keywords) ++ tokenize e.chapter).toFinset

def own_topic_score (entries : List QEntry) (e : QEntry) : ℕ :=
  overlap_score (qTokensOf e) (topicProfile entries e.topic_id)

def own_subcat_score (entries : List QEntry) (e : QEntry) : ℕ :=
  overlap_score (qTokensOf e) (subcatProfile entries (e.topic_id, e.subcategory_id))

/-- The positive scores against every other topic's profile, in topic
insertion order. -/
def other_scores (entries : List QEntry) (e : QEntry) : List (String × ℕ) :=
  (topicIdsInOrder entries).filterMap fun tid =>
    if tid = e.topic_id then none
    else
      let score := overlap_score (qTokensOf e) (topicProfile entries tid)
      if 0 < score then some (tid, score) else none

/-- `other_scores.sort(key=score, reverse=True); other_scores[0] or ("", 0)`.
Python's sort is stable; a stable descending sort is embedded as insertion
sort with the reflexive total relation `score b ≤ score a` (stable sorts by
the same key agree on output). -/
def bestOther (entries : List QEntry) (e : QEntry) : String × ℕ :=
  ((other_scores entries e).insertionSort (fun a b => b.2 ≤ a.2)).headD ("", 0)

/-- The two flag conditions and their reason strings, in source order. -/
def relevanceReasons (entries : List QEntry) (e : QEntry) : List String :=
  (if own_subcat_score entries e = 0 ∧ own_topic_score entries e ≤ 1 then
    ["low_own_topic_subcategory_overlap"] else []) ++
  (if 3 ≤ (bestOther entries e).2 ∧ own_topic_score entries e + 2 ≤ (bestOther entries e).2 then
    ["looks_closer_to:" ++ (bestOther entries e).1] else [])

/-- `summarize_entry(e)`. -/
structure EntrySummary where
  topic_id : String
  subcategory_id : String
  question_id : String
  source_file : String
  question : String
  deriving DecidableEq, Repr

def summarize_entry (e : QEntry) : EntrySummary :=
  { topic_id := e.topic_id
    subcategory_id := e.subcategory_id
    question_id := e.question_id
    source_file := e.source_file
    question := e.question }

/-- One relevance flag record. -/
structure RelevanceFlag where
  question : EntrySummary
  own_topic_score : ℕ
  own_subcategory_score : ℕ
  best_other_topic : String
  best_other_score : ℕ
  reasons : List String
  deriving DecidableEq, Repr

def mkFlag (entries : List QEntry) (e : QEntry) : RelevanceFlag :=
  { question := summarize_entry e
    own_topic_score := own_topic_score entries e
    own_subcategory_score := own_subcat_score entries e
    best_other_topic := (bestOther entries e).1
    best_other_score := (bestOther entries e).2
    reasons := relevanceReasons entries e }

/-- The relevance-flag pass of `build_audit`: entries with an empty token list
are skipped, an entry is flagged iff it accrues at least one reason (the
final output sort is omitted here; the claims under audit are about
membership). -/
def relevance_flags (entries : List QEntry) : List RelevanceFlag :=
  entries.filterMap fun e =>
    if e.tokens = [] then none
    else if relevanceReasons entries e = [] then none
    else some (mkFlag entries e)

/-! ### Near-duplicate detector (`build_audit`)

`SequenceMatcher(None, a, b).ratio()` is kept abstract: the scan is
parameterized by a similarity function `r : String → String → ℚ`; the
rounding of the stored similarity to 4 decimals is presentation only and is
omitted. -/

/-- The bucket key: `(" ".join(tokens[:4]), len(tokens) // 4)`. -/
def bkey (e : QEntry) : String × ℕ :=
  (joinSpace (e.tokens.take 4), e.tokens.length / 4)

/-- The ordered pairs `(l[i], l[j])` with `i < j`, outer index first — the
double loop `for i in range(n): for j in range(i+1, n)`. -/
def orderedPairs {α : Type} : List α → List (α × α)
  | [] => []
  | a :: rest => (rest.map (fun b => (a, b))) ++ orderedPairs rest

/-- The bucket for key `k`: the entries (with their global position) whose
key is `k`, in corpus order. -/
def bucketFor (entries : List QEntry) (k : String × ℕ) : List (ℕ × QEntry) :=
  entries.enum.filter (fun p => decide (bkey p.2 = k))

/-- The buckets in key-insertion order. -/
def bucketsOf (entries : List QEntry) : List (List (ℕ × QEntry)) :=
  (firstDedup (entries.map bkey)).map (bucketFor entries)

structure NearDupReport where
  idx_a : ℕ
  idx_b : ℕ
  similarity : ℚ
  a : EntrySummary
  b : EntrySummary
  deriving DecidableEq, Repr

/-- The near-duplicate scan state: `seen_pairs` and the report list. -/
structure ScanState where
  seen : List (ℕ × ℕ)
  out : List NearDupReport
  deriving DecidableEq, Repr

/-- One iteration of the inner pair loop. -/
def stepPair (t : ℚ) (r : String → String → ℚ) (st : ScanState)
    (pq : (ℕ × QEntry) × (ℕ × QEntry)) : ScanState :=
  let ia := pq.1.1
  let a := pq.1.2
  let ib := pq.2.1
  let b := pq.2.2
  if (ia, ib) ∈ st.seen then st
  else if a.norm_question = "" ∨ b.norm_question = "" then st
  else
    let ratio := r a.norm_question b.norm_question
    if t ≤ ratio ∧ a.norm_question ≠ b.norm_question then
      { seen := (ia, ib) :: st.seen,
        out := st.out ++ [{ idx_a := ia, idx_b := ib, similarity := ratio,
                            a := summarize_entry a, b := summarize_entry b }] }
    else st

/-- The near-duplicate pass of `build_audit`: bucket, then compare every pair
within each bucket only. -/
def near_duplicates (t : ℚ) (r : String → String → ℚ) (entries : List QEntry) :
    List NearDupReport :=
  ((bucketsOf entries).foldl
    (fun st bucket => (orderedPairs bucket).foldl (stepPair t r) st)
    { seen := [], out := [] }).out

/-! ### Batch Mover/Remover (`process_relevance_queue_batch.py`)

The in-memory state after `load_topic_data` is a `Corpus`; in Python the
per-topic dictionaries alias the loaded documents, so mutation through
`topic_to_subcats` is mutation of `file_data` — here state is threaded
explicitly.  Topic ids and subcategory ids are assumed unique (the documented
index invariant); lookups take the first match.  The regex signal gate
`has_target_signal` is kept abstract as a `String → String → Bool` parameter
(text, target topic). -/

/-- The fixed fallback-subcategory table `TARGET_SUBCATEGORY_DEFAULT`. -/
def TARGET_SUBCATEGORY_DEFAULT : List (String × String) :=
  [("psr", "psr_general_admin"),
   ("financial_regulations", "fin_general"),
   ("procurement_act", "proc_objectives_institutions"),
   ("constitutional_law", "clg_general_competency"),
   ("civil_service_admin", "csh_administrative_procedures"),
   ("leadership_management", "lead_management_performance"),
   ("ict_management", "ict_fundamentals"),
   ("policy_analysis", "pol_analysis_methods"),
   ("general_current_affairs", "ca_general"),
   ("competency_framework", "comp_verbal_reasoning")]

/-- One review-queue item (`scores.best_other` is read as an `int`). -/
structure QueueItem where
  question_id : String
  source_topic : String
  source_subcategory : String
  question : String
  suggested_target_topic : String
  best_other : Int
  deriving DecidableEq, Repr

/-- One `question_lookup` value. -/
structure QuestionLoc where
  file : String
  index : ℕ
  nested : Bool
  sub_id : String
  question : Question
  norm : String
  deriving DecidableEq, Repr

/-- `question_lookup`, keyed by `(topic_id, sub_id, stripped question id)`;
built once at load time, with load-time indices. -/
def question_lookup (c : Corpus) : List ((String × String × String) × QuestionLoc) :=
  c.flatMap fun t =>
    t.doc.subcategories.flatMap fun sub =>
      (qlistOf sub).enum.map fun p =>
        ((t.topic_id, sub.id, stripStr p.2.id),
         { file := t.file
           index := p.1
           nested := shapeTag sub
           sub_id := sub.id
           question := p.2
           norm := normalizeStr (stripStr p.2.question) })

/-- Python dictionary lookup on an insertion-ordered association list: the
last binding for a key wins. -/
def dictLookup {κ α : Type} [DecidableEq κ] (l : List (κ × α)) (k : κ) : Option α :=
  (l.reverse.find? (fun p => decide (p.1 = k))).map (·.2)

/-- `norms_by_topic` as loaded: every `(topic_id, norm)` with a non-empty
normalized question text. -/
def norms_init (c : Corpus) : List (String × String) :=
  c.flatMap fun t =>
    t.doc.subcategories.flatMap fun sub =>
      (qlistOf sub).filterMap fun q =>
        let norm := normalizeStr (stripStr q.question)
        if norm ≠ "" then some (t.topic_id, norm) else none

/-- `topic_to_file[tid]` (total, with `""` for an unloaded topic; every use in
the script is guarded by a successful mutation, which implies the topic was
loaded). -/
def topic_to_file (c : Corpus) (tid : String) : String :=
  (((c.reverse.find? (fun t => t.topic_id == tid)).map (·.file))).getD ""

/-- Update the first topic entry with the given id. -/
def updateTopic (c : Corpus) (tid : String) (f : TopicDoc → TopicDoc) : Corpus :=
  match c with
  | [] => []
  | t :: rest =>
    if t.topic_id = tid then { t with doc := f t.doc } :: rest
    else t :: updateTopic rest tid f

/-- Update the first subcategory with the given id. -/
def updateSub (d : TopicDoc) (sid : String) (f : Subcategory → Subcategory) : TopicDoc :=
  { subcategories :=
      match d.subcategories.findIdx? (fun s => s.id == sid) with
      | none => d.subcategories
      | some i => d.subcategories.modify f i }

/-- Whether `sid in topic_to_subcats[tid]`. -/
def hasSub (c : Corpus) (tid sid : String) : Bool :=
  match c.find? (fun t => t.topic_id == tid) with
  | none => false
  | some t => t.doc.subcategories.any (fun s => s.id == sid)

/-- The current effective question list of one subcategory. -/
def subQuestions (c : Corpus) (tid sid : String) : List Question :=
  match c.find? (fun t => t.topic_id == tid) with
  | none => []
  | some t =>
    match t.doc.subcategories.find? (fun s => s.id == sid) with
    | none => []
    | some s => qlistOf s

/-- `append_question_to_target`: append to the target topic's fixed fallback
subcategory, preserving its on-disk shape; fails (leaving the corpus
unchanged) when the topic has no fallback mapping or the fallback
subcategory is not present. -/
def append_question_to_target (c : Corpus) (target_topic : String) (q : Question) :
    Bool × Corpus :=
  match dictLookup TARGET_SUBCATEGORY_DEFAULT target_topic with
  | none => (false, c)
  | some target_sub =>
    if target_sub = "" then (false, c)
    else if hasSub c target_topic target_sub then
      (true, updateTopic c target_topic (fun d => updateSub d target_sub (fun s =>
        { s with questions := s.questions.set (qlistOf s ++ [q]) })))
    else (false, c)

/-- `remove_question_from_source`: remove the question at `index` from the
current list, preserving shape; fails when the subcategory is missing or the
index is out of range of the current list. -/
def remove_question_from_source (c : Corpus) (src_topic src_sub : String) (index : ℕ) :
    Bool × Corpus :=
  if hasSub c src_topic src_sub then
    if index < (subQuestions c src_topic src_sub).length then
      (true, updateTopic c src_topic (fun d => updateSub d src_sub (fun s =>
        { s with questions := s.questions.set ((qlistOf s).eraseIdx index) })))
    else (false, c)
  else (false, c)

/-- One recorded action of the batch result. -/
structure ActionRec where
  action : String
  question_id : String
  source_topic : String
  source_subcategory : String
  target_topic : String
  reason : String
  deriving DecidableEq, Repr

/-- The running state of `process_queue`: the (aliased, here threaded)
documents, the duplicate-membership sets, the recorded actions and the
changed-file set. -/
structure BatchState where
  corpus : Corpus
  norms : List (String × String)
  actions : List ActionRec
  changed : List String
  deriving Repr

/-- `set.add` on the changed-file set. -/
def addChanged (l : List String) (f : String) : List String :=
  if f ∈ l then l else l ++ [f]

/-- One iteration of the queue loop of `process_queue`. -/
def processItem (sig : String → String → Bool) (minScore : Int)
    (requireSignal apply : Bool)
    (lookup : List ((String × String × String) × QuestionLoc))
    (tfile : String → String) (st : BatchState) (item : QueueItem) : BatchState :=
  let src_topic := item.source_topic
  let src_sub := item.source_subcategory
  let qid := item.question_id
  let target := item.suggested_target_topic
  let norm := normalizeStr item.question
  if src_topic = "" ∨ src_sub = "" ∨ qid = "" ∨ target = "" then st
  else if item.best_other < minScore then st
  else if requireSignal ∧ ¬ sig item.question target then st
  else
    match dictLookup lookup (src_topic, src_sub, qid) with
    | none => st
    | some loc =>
      if norm ≠ "" ∧ (target, norm) ∈ st.norms then
        let next :=
          if apply then
            let res := remove_question_from_source st.corpus src_topic src_sub loc.index
            if res.1 then (res.2, addChanged st.changed (tfile src_topic))
            else (res.2, st.changed)
          else (st.corpus, st.changed)
        { corpus := next.1
          norms := st.norms
          changed := next.2
          actions := st.actions ++
            [{ action := "remove_source_duplicate", question_id := qid,
               source_topic := src_topic, source_subcategory := src_sub,
               target_topic := target,
               reason := "equivalent_exists_in_target_topic" }] }
      else
        if apply then
          let moved := append_question_to_target st.corpus target loc.question
          let removed := remove_question_from_source moved.2 src_topic src_sub loc.index
          if moved.1 ∧ removed.1 then
            { corpus := removed.2
              norms := if norm ≠ "" then st.norms ++ [(target, norm)] else st.norms
              changed := addChanged (addChanged st.changed (tfile src_topic)) (tfile target)
              actions := st.actions ++
                [{ action := "move_to_target", question_id := qid,
                   source_topic := src_topic, source_subcategory := src_sub,
                   target_topic := target,
                   reason := "high_confidence_signal_matched" }] }
          else
            { corpus := removed.2
              norms := st.norms
              changed := st.changed
              actions := st.actions ++
                [{ action := "skipped_move_failed", question_id := qid,
                   source_topic := src_topic, source_subcategory := src_sub,
                   target_topic := target,
                   reason := "high_confidence_signal_matched" }] }
        else
          { st with
            actions := st.actions ++
              [{ action := "move_to_target", question_id := qid,
                 source_topic := src_topic, source_subcategory := src_sub,
                 target_topic := target,
                 reason := "high_confidence_signal_matched" }] }

/-- `sorted(items, key=lambda x: scores.best_other, reverse=True)` — a stable
descending sort (see `bestOther` on the choice of insertion sort). -/
def sortQueue (items : List QueueItem) : List QueueItem :=
  items.insertionSort (fun a b => b.best_other ≤ a.best_other)

/-- `process_queue(min_score, require_signal, apply)` over a loaded corpus
and the parsed queue items. -/
def process_queue (sig : String → String → Bool) (minScore : Int)
    (requireSignal apply : Bool) (c : Corpus) (items : List QueueItem) : BatchState :=
  (sortQueue items).foldl
    (processItem sig minScore requireSignal apply (question_lookup c) (topic_to_file c))
    { corpus := c, norms := norms_init c, actions := [], changed := [] }

/-- The document persisted at `rel` after the run: the mutated in-memory
document when `apply` holds and `rel` was marked changed, the original
on-disk document otherwise. -/
def persistedDoc (original : Corpus) (st : BatchState) (apply : Bool) (rel : String) :
    Option TopicDoc :=
  if apply ∧ rel ∈ st.changed then (st.corpus.find? (fun t => t.file == rel)).map (·.doc)
  else (original.find? (fun t => t.file == rel)).map (·.doc)

/-! ### Same-subcategory duplicate cleanup (`cleanup_duplicates_safe.py`) -/

/-- `remove_indices` of one subcategory: the positions of questions whose
non-empty normalized text was already seen earlier in the same list. -/
def cleanupRemoveIndices (qs : List Question) : List ℕ :=
  (qs.enum.foldl
    (fun (acc : List ℕ × List String) p =>
      let norm := normalizeStr (stripStr p.2.question)
      if norm = "" then acc
      else if norm ∈ acc.2 then (acc.1 ++ [p.1], acc.2)
      else (acc.1, acc.2 ++ [norm])) ([], [])).1

/-- `[q for i, q in enumerate(question_list) if i not in to_remove]`. -/
def cleanupQuestionList (qs : List Question) : List Question :=
  ((qs.enum.filter (fun p => decide (p.1 ∉ cleanupRemoveIndices qs))).map (·.2))

/-- The per-subcategory transform of `cleanup_file`: when any duplicate is
found, the filtered list is written back under the original shape. -/
def cleanupSub (sub : Subcategory) : Subcategory :=
  if qlistOf sub = [] then sub
  else if cleanupRemoveIndices (qlistOf sub) = [] then sub
  else { sub with questions := sub.questions.set (cleanupQuestionList (qlistOf sub)) }

/-- `cleanup_file` on one loaded topic document. -/
def cleanup_file (d : TopicDoc) : TopicDoc :=
  { subcategories := d.subcategories.map cleanupSub }

/-! ### Reconciler (`reconcile_relevance_moves.py`) -/

/-- `build_indices`: every `(topic_id, norm)` of the current documents (the
empty norm is inserted too; every use is guarded by `norm and ...`). -/
def recon_norms (c : Corpus) : List (String × String) :=
  c.flatMap fun t =>
    t.doc.subcategories.flatMap fun sub =>
      (qlistOf sub).map fun q => (t.topic_id, normalizeStr q.question)

/-- The norm set of one topic. -/
def tgtNormsOf (norms : List (String × String)) (tid : String) : List String :=
  (norms.filter (fun p => p.1 == tid)).map (·.2)

/-- The first index whose question has the action's id and whose non-empty
normalized text appears in the target topic's norm set. -/
def reconcileFindIdx (qs : List Question) (qid : String) (tgtNorms : List String) :
    Option ℕ :=
  ((qs.enum.find? fun p =>
      decide (stripStr p.2.id = qid) &&
        (let norm := normalizeStr p.2.question
         decide (norm ≠ "" ∧ norm ∈ tgtNorms))).map (·.1))

/-- The reconciler run state: documents, `removed_leftovers`, changed
topics. -/
structure ReconState where
  corpus : Corpus
  removed : ℕ
  changedTopics : List String
  deriving Repr

/-- One iteration of the action loop of the reconciler's `main`. -/
def reconStep (norms : List (String × String)) (st : ReconState) (a : ActionRec) :
    ReconState :=
  if ¬ (a.action = "move_to_target" ∨ a.action = "remove_source_duplicate") then st
  else if a.source_topic = "" ∨ a.source_subcategory = "" ∨ a.target_topic = "" ∨
      a.question_id = "" then st
  else
    match st.corpus.find? (fun t => t.topic_id == a.source_topic) with
    | none => st
    | some t =>
      match t.doc.subcategories.find? (fun s => s.id == a.source_subcategory) with
      | none => st
      | some sub =>
        match reconcileFindIdx (qlistOf sub) a.question_id (tgtNormsOf norms a.target_topic) with
        | none => st
        | some i =>
          { corpus := updateTopic st.corpus a.source_topic (fun d =>
              updateSub d a.source_subcategory (fun s =>
                { s with questions := s.questions.set ((qlistOf s).eraseIdx i) }))
            removed := st.removed + 1
            changedTopics := addChanged st.changedTopics a.source_topic }

/-- The reconciler's `main` over a loaded corpus and the batch-result
actions: indices are built once at the start, then every action is swept;
changed topics are flushed at the end (so the resulting corpus is also the
on-disk state after the run). -/
def reconcile_run (c : Corpus) (actions : List ActionRec) : ReconState :=
  actions.foldl (reconStep (recon_norms c))
    { corpus := c, removed := 0, changedTopics := [] }

/-! ### Concrete corpora and queues used as test inputs -/

def qA1 : Question := { id := "q1", question := "alpha one", keywords := [], chapter := "" }
def qA2 : Question := { id := "q2", question := "beta two", keywords := [], chapter := "" }
def qB1 : Question := { id := "qx", question := "beta two", keywords := [], chapter := "" }

/-- A corpus whose target topic (`procurement_act`) lacks its fallback
subcategory `proc_objectives_institutions`, so a move into it must fail. -/
def corpusMoveFail : Corpus :=
  [{ topic_id := "a_src", topic_name := "A", file := "fa",
     doc := { subcategories := [{ id := "s1", name := "S1", questions := .flat [qA1, qA2] }] } },
   { topic_id := "procurement_act", topic_name := "P", file := "fb",
     doc := { subcategories := [{ id := "px", name := "PX", questions := .flat [qB1] }] } }]

def itemM1 : QueueItem :=
  { question_id := "q1", source_topic := "a_src", source_subcategory := "s1",
    question := "alpha one", suggested_target_topic := "procurement_act", best_other := 5 }

def itemM2 : QueueItem :=
  { question_id := "q2", source_topic := "a_src", source_subcategory := "s1",
    question := "beta two", suggested_target_topic := "procurement_act", best_other := 6 }

/-- Apply run over `corpusMoveFail`: first the duplicate removal of `q2`
(score 6), then the failing move of `q1` (score 5). -/
def runMoveFail : BatchState :=
  process_queue (fun _ _ => true) 4 false true corpusMoveFail [itemM1, itemM2]

def qW1 : Question := { id := "qA", question := "alpha one", keywords := [], chapter := "" }
def qW2 : Question := { id := "qB", question := "beta two", keywords := [], chapter := "" }
def qW3 : Question := { id := "qC", question := "gamma three", keywords := [], chapter := "" }
def qT1 : Question := { id := "qx", question := "alpha one", keywords := [], chapter := "" }
def qT2 : Question := { id := "qy", question := "beta two", keywords := [], chapter := "" }

/-- A corpus where two queue items remove from the same source subcategory
`[qA, qB, qC]`, both of their texts already present at the target. -/
def corpusDrift : Corpus :=
  [{ topic_id := "a_src", topic_name := "A", file := "fa",
     doc := { subcategories := [{ id := "s1", name := "S1", questions := .flat [qW1, qW2, qW3] }] } },
   { topic_id := "procurement_act", topic_name := "P", file := "fb",
     doc := { subcategories := [{ id := "px", name := "PX", questions := .flat [qT1, qT2] }] } }]

def itemDA : QueueItem :=
  { question_id := "qA", source_topic := "a_src", source_subcategory := "s1",
    question := "alpha one", suggested_target_topic := "procurement_act", best_other := 6 }

def itemDB : QueueItem :=
  { question_id := "qB", source_topic := "a_src", source_subcategory := "s1",
    question := "beta two", suggested_target_topic := "procurement_act", best_other := 5 }

def runDrift : BatchState :=
  process_queue (fun _ _ => true) 4 false true corpusDrift [itemDA, itemDB]

def qX1 : Question := { id := "q1", question := "alpha one", keywords := [], chapter := "" }
def qX2 : Question := { id := "q2", question := "alpha one", keywords := [], chapter := "" }

/-- A corpus where an early successful move puts the text `alpha one` into the
target, and a later item carries the same normalized text. -/
def corpusSnapshot : Corpus :=
  [{ topic_id := "a_src", topic_name := "A", file := "fa",
     doc := { subcategories :=
       [{ id := "s1", name := "S1", questions := .flat [qX1] },
        { id := "s2", name := "S2", questions := .flat [qX2] }] } },
   { topic_id := "procurement_act", topic_name := "P", file := "fb",
     doc := { subcategories :=
       [{ id := "proc_objectives_institutions", name := "F", questions := .flat [] }] } }]

def itemS1 : QueueItem :=
  { question_id := "q1", source_topic := "a_src", source_subcategory := "s1",
    question := "alpha one", suggested_target_topic := "procurement_act", best_other := 6 }

def itemS2 : QueueItem :=
  { question_id := "q2", source_topic := "a_src", source_subcategory := "s2",
    question := "alpha one", suggested_target_topic := "procurement_act", best_other := 5 }

def runSnapshot : BatchState :=
  process_queue (fun _ _ => true) 4 false true corpusSnapshot [itemS1, itemS2]

def qDup : Question := { id := "x", question := "alpha one", keywords := [], chapter := "" }

/-- A corpus with a duplicated question id (same id, same text, twice in one
subcategory) whose text also sits at the target topic. -/
def corpusDupIds : Corpus :=
  [{ topic_id := "a_src", topic_name := "A", file := "fa",
     doc := { subcategories := [{ id := "s1", name := "S1", questions := .flat [qDup, qDup] }] } },
   { topic_id := "b_tgt", topic_name := "B", file := "fb",
     doc := { subcategories := [{ id := "t1", name := "T1", questions := .flat [qDup] }] } }]

def actDup : ActionRec :=
  { action := "move_to_target", question_id := "x", source_topic := "a_src",
    source_subcategory := "s1", target_topic := "b_tgt", reason := "r" }

def reconDup1 : ReconState := reconcile_run corpusDupIds [actDup]

def reconDup2 : ReconState := reconcile_run reconDup1.corpus [actDup]

/-- A corpus for the dry-run/apply divergence: single source question, target
lacking its fallback subcategory and holding no equivalent text. -/
def corpusDivergence : Corpus :=
  [{ topic_id := "a_src", topic_name := "A", file := "fa",
     doc := { subcategories := [{ id := "s1", name := "S1", questions := .flat [qA1] }] } },
   { topic_id := "procurement_act", topic_name := "P", file := "fb",
     doc := { subcategories := [{ id := "px", name := "PX", questions := .flat [] }] } }]

def runDivergenceDry : BatchState :=
  process_queue (fun _ _ => true) 4 false false corpusDivergence [itemM1]

def runDivergenceApply : BatchState :=
  process_queue (fun _ _ => true) 4 false true corpusDivergence [itemM1]

def eW : QEntry :=
  { topic_id := "t1", topic_name := "zzz", subcategory_id := "y1", subcategory_name := "yyy",
    question_id := "w1", question := "procurement bid tender",
    keywords := [], chapter := "", source_file := "fw",
    norm_question := "procurement bid tender",
    tokens := ["procurement", "bid", "tender"] }

def eW2 : QEntry :=
  { topic_id := "procurement_act", topic_name := "Procurement Act", subcategory_id := "p1",
    subcategory_name := "General", question_id := "w2", question := "award of contract",
    keywords := [], chapter := "", source_file := "fp",
    norm_question := "award of contract",
    tokens := ["award", "contract"] }

def entriesW : List QEntry := [eW, eW2]

/-- The contribution of one declared topic to `collect_entries` on a run that
does not abort. -/
def topicContribution (fs : FS) (t : TopicMeta) : List QEntry :=
  if t.file = "" then []
  else
    match lookupFS fs t.file with
    | none => []
    | some .malformed => []
    | some (.topicIndex _) => []
    | some (.topicFile doc) => entriesOfTopic t doc

def fsMalformedTopic : FS :=
  [("topics.json", .topicIndex [{ id := "t1", name := "T", file := "f1" }]),
   ("f1", .malformed)]

def fsGood : FS :=
  [("topics.json", .topicIndex
    [{ id := "t1", name := "T", file := "f1" },
     { id := "t2", name := "U", file := "fmissing" }]),
   ("f1", .topicFile { subcategories :=
     [{ id := "s1", name := "S", questions := .flat [qA1] }] })]

/-- The output alphabet `[a-z0-9 ]` of the normalizer. -/
def OutChar (c : Char) : Prop :=
  (97 ≤ c.toNat ∧ c.toNat ≤ 122) ∨ (48 ≤ c.toNat ∧ c.toNat ≤ 57) ∨ c = ' '

/-- The index pair of one compared pair. -/
def pairOf (pq : (ℕ × QEntry) × (ℕ × QEntry)) : ℕ × ℕ := (pq.1.1, pq.2.1)

/-- The report record `stepPair` emits for one pair. -/
def mkNearDup (r : String → String → ℚ)
    (pq : (ℕ × QEntry) × (ℕ × QEntry)) : NearDupReport :=
  { idx_a := pq.1.1, idx_b := pq.2.1,
    similarity := r pq.1.2.norm_question pq.2.2.norm_question,
    a := summarize_entry pq.1.2, b := summarize_entry pq.2.2 }

/-- The per-pair reporting condition of the near-duplicate scan (what
`stepPair` reports when the pair is not yet seen). -/
def scanDecision (t : ℚ) (r : String → String → ℚ)
    (pq : (ℕ × QEntry) × (ℕ × QEntry)) : Prop :=
  ¬(pq.1.2.norm_question = "" ∨ pq.2.2.norm_question = "") ∧
    (t ≤ r pq.1.2.norm_question pq.2.2.norm_question ∧
      pq.1.2.norm_question ≠ pq.2.2.norm_question)

/-- The pairs compared by the near-duplicate scan, in scan order. -/
def allPairs (entries : List QEntry) : List ((ℕ × QEntry) × (ℕ × QEntry)) :=
  (bucketsOf entries).flatMap orderedPairs

def eN1 : QEntry :=
  { topic_id := "t1", topic_name := "T", subcategory_id := "s1", subcategory_name := "S",
    question_id := "n1", question := "alpha one", keywords := [], chapter := "",
    source_file := "f1", norm_question := "alpha one", tokens := ["alpha", "beta", "gamma", "delta", "one"] }

def eN2 : QEntry :=
  { topic_id := "t1", topic_name := "T", subcategory_id := "s1", subcategory_name := "S",
    question_id := "n2", question := "alpha two", keywords := [], chapter := "",
    source_file := "f1", norm_question := "alpha two", tokens := ["alpha", "beta", "gamma", "delta", "two"] }

def entriesN : List QEntry := [eN1, eN2]

/-- A concrete similarity function standing in for `SequenceMatcher.ratio`. -/
def rW : String → String → ℚ := fun x y => if x = "" ∨ y = "" then 0 else 1

/-- One subcategory is the other with some questions erased. -/
def SubErased (s2 s1 : Subcategory) : Prop :=
  s2.id = s1.id ∧ List.Sublist (qlistOf s2) (qlistOf s1)

/-- One topic document is the other with some questions erased. -/
def DocErased (d2 d1 : TopicDoc) : Prop :=
  List.Forall₂ SubErased d2.subcategories d1.subcategories

/-- One corpus is the other with some questions erased. -/
def CorpusErased (c2 c1 : Corpus) : Prop :=
  List.Forall₂ (fun t2 t1 => t2.topic_id = t1.topic_id ∧ DocErased t2.doc t1.doc) c2 c1

/-- Per-subcategory question-id uniqueness (the amended idempotence
precondition): within every subcategory list, stripped question ids are
pairwise distinct. -/
def UniqueIds (c : Corpus) : Prop :=
  ∀ t ∈ c, ∀ s ∈ t.doc.subcategories, ((qlistOf s).map (fun q => stripStr q.id)).Nodup

/-- Leftover-freeness of one action against a corpus and a norm table: no
question with the action's id in the action's source subcategory has a
non-empty normalized text present in the target topic's norm set. -/
def GoodAfter (norms : List (String × String)) (c : Corpus) (a : ActionRec) : Prop :=
  ∀ q ∈ subQuestions c a.source_topic a.source_subcategory,
    stripStr q.id = a.question_id →
      normalizeStr q.question = "" ∨
        normalizeStr q.question ∉ tgtNormsOf norms a.target_topic

/-- The guard conditions of one reconciler action (the action kind filter and
the non-empty-field filter). -/
def GuardsOk (a : ActionRec) : Prop :=
  (a.action = "move_to_target" ∨ a.action = "remove_source_duplicate") ∧
    ¬(a.source_topic = "" ∨ a.source_subcategory = "" ∨ a.target_topic = "" ∨
      a.question_id = "")

/-- Claim C1 (code bug, evaluated at the failing input): in an apply run a
queue item whose move fails (the fallback subcategory
`proc_objectives_institutions` is absent from the target topic's document) is
recorded as `skipped_move_failed`, yet its question `q1` is removed from the
source subcategory anyway — `remove_question_from_source` runs even though
`append_question_to_target` failed — and, because an earlier item of the same
run marked the source file changed, the phantom removal is persisted: the
written document has an empty question list and `q1` is in neither source nor
target.  The claim that both sides are left exactly as they were is violated
in memory and on disk. -/
theorem c1_skipped_move_failed_not_atomic :
    subQuestions corpusMoveFail "a_src" "s1" = [qA1, qA2] ∧
    runMoveFail.actions =
      [{ action := "remove_source_duplicate", question_id := "q2", source_topic := "a_src",
         source_subcategory := "s1", target_topic := "procurement_act",
         reason := "equivalent_exists_in_target_topic" },
       { action := "skipped_move_failed", question_id := "q1", source_topic := "a_src",
         source_subcategory := "s1", target_topic := "procurement_act",
         reason := "high_confidence_signal_matched" }] ∧
    subQuestions runMoveFail.corpus "a_src" "s1" = [] ∧
    subQuestions runMoveFail.corpus "procurement_act" "px" = [qB1] ∧
    persistedDoc corpusMoveFail runMoveFail true "fa" =
      some { subcategories := [{ id := "s1", name := "S1", questions := .flat [] }] } := by
  refine ⟨by decide, by decide, by decide, by decide, by decide⟩

/-- Claim C2 (code bug, evaluated at the failing input): removals in one
apply run use the load-time index against the already-mutated list, so they do
NOT behave as if all target indices were collected first and the list filtered
once.  With source list `[qA, qB, qC]` and two `remove_source_duplicate`
items for `qA` (index 0, processed first) and `qB` (index 1), the second
removal deletes `qC` — an unrelated question — and leaves `qB` in place,
while the recorded action claims `qB` was removed. -/
theorem c2_stale_index_removal_wrong_question :
    subQuestions corpusDrift "a_src" "s1" = [qW1, qW2, qW3] ∧
    runDrift.actions =
      [{ action := "remove_source_duplicate", question_id := "qA", source_topic := "a_src",
         source_subcategory := "s1", target_topic := "procurement_act",
         reason := "equivalent_exists_in_target_topic" },
       { action := "remove_source_duplicate", question_id := "qB", source_topic := "a_src",
         source_subcategory := "s1", target_topic := "procurement_act",
         reason := "equivalent_exists_in_target_topic" }] ∧
    subQuestions runDrift.corpus "a_src" "s1" = [qW2] ∧
    qW2.id = "qB" ∧ qW3.id = "qC" := by
  refine ⟨by decide, by decide, by decide, by decide, by decide⟩

/-- Claim C3 counterexample: in a single apply run, an early item moves the
text `alpha one` into `procurement_act`; a later item with the same
normalized text suggested for the same topic is then classified
`remove_source_duplicate` — not `move_to_target` as the claim states —
because the membership set is updated after each successful move
(`norms_by_topic[target_topic].add(norm)`). -/
theorem c3_counterexample_later_item_reclassified :
    runSnapshot.actions =
      [{ action := "move_to_target", question_id := "q1", source_topic := "a_src",
         source_subcategory := "s1", target_topic := "procurement_act",
         reason := "high_confidence_signal_matched" },
       { action := "remove_source_duplicate", question_id := "q2", source_topic := "a_src",
         source_subcategory := "s2", target_topic := "procurement_act",
         reason := "equivalent_exists_in_target_topic" }] ∧
    normalizeStr itemS1.question = normalizeStr itemS2.question ∧
    itemS1.suggested_target_topic = itemS2.suggested_target_topic := by
  refine ⟨by decide, by decide, by decide⟩

lemma processItem_dry_actions (sig : String → String → Bool) (ms : Int) (rs : Bool)
    (lookup : List ((String × String × String) × QuestionLoc)) (tfile : String → String)
    (st : BatchState) (item : QueueItem) :
    ∀ a ∈ (processItem sig ms rs false lookup tfile st item).actions,
      a ∈ st.actions ∨ a.action = "move_to_target" ∨ a.action = "remove_source_duplicate" := by
  intro a ha
  unfold processItem at ha
  dsimp only at ha
  split at ha
  · exact Or.inl ha
  · split at ha
    · exact Or.inl ha
    · split at ha
      · exact Or.inl ha
      · split at ha
        · exact Or.inl ha
        · split at ha
          · simp only [Bool.false_eq_true, if_false, List.mem_append, List.mem_singleton] at ha
            rcases ha with h | h
            · exact Or.inl h
            · subst h; exact Or.inr (Or.inr rfl)
          · simp only [Bool.false_eq_true, if_false, List.mem_append, List.mem_singleton] at ha
            rcases ha with h | h
            · exact Or.inl h
            · subst h; exact Or.inr (Or.inl rfl)

lemma foldl_dry_actions (sig : String → String → Bool) (ms : Int) (rs : Bool)
    (lookup : List ((String × String × String) × QuestionLoc)) (tfile : String → String)
    (items : List QueueItem) (st : BatchState)
    (h : ∀ a ∈ st.actions, a.action = "move_to_target" ∨ a.action = "remove_source_duplicate") :
    ∀ a ∈ (items.foldl (processItem sig ms rs false lookup tfile) st).actions,
      a.action = "move_to_target" ∨ a.action = "remove_source_duplicate" := by
  induction items generalizing st with
  | nil => exact h
  | cons item rest ih =>
    intro a ha
    refine ih _ ?_ a ha
    intro b hb
    rcases processItem_dry_actions sig ms rs lookup tfile st item b hb with h1 | h1 | h1
    · exact h b h1
    · exact Or.inl h1
    · exact Or.inr h1

/-- Claim C10: in dry-run mode (`apply = false`) the Batch Mover never
records `skipped_move_failed` — every recorded action is `move_to_target` or
`remove_source_duplicate` — because move feasibility is only checked on the
apply path; consequently (second and third conjuncts, at a concrete corpus
whose target topic lacks its fallback subcategory) a dry run reports
`move_to_target` for an item that an apply run records as
`skipped_move_failed`. -/
theorem c10_dry_run_never_skipped_move_failed :
    (∀ (sig : String → String → Bool) (ms : Int) (rs : Bool) (c : Corpus)
        (items : List QueueItem),
      ∀ a ∈ (process_queue sig ms rs false c items).actions,
        a.action = "move_to_target" ∨ a.action = "remove_source_duplicate") ∧
    runDivergenceDry.actions =
      [{ action := "move_to_target", question_id := "q1", source_topic := "a_src",
         source_subcategory := "s1", target_topic := "procurement_act",
         reason := "high_confidence_signal_matched" }] ∧
    runDivergenceApply.actions =
      [{ action := "skipped_move_failed", question_id := "q1", source_topic := "a_src",
         source_subcategory := "s1", target_topic := "procurement_act",
         reason := "high_confidence_signal_matched" }] := by
  refine ⟨?_, by decide, by decide⟩
  intro sig ms rs c items
  exact foldl_dry_actions sig ms rs (question_lookup c) (topic_to_file c) (sortQueue items)
    { corpus := c, norms := norms_init c, actions := [], changed := [] } (by intro a ha; cases ha)

/-- Claim C3 amended: the duplicate-membership set is seeded at the start of
the run but augmented during it — (2) after an applied item's successful move
(both append and removal succeed) with non-empty normalized text, the pair
`(target, norm)` is in the state's membership set; and (1) any item passing
the input filters whose non-empty normalized text is in the current
membership set for its target is classified `remove_source_duplicate`.
Hence a later same-text item for the same target in the same apply run is
classified `remove_source_duplicate`, not `move_to_target`. -/
theorem c3_amended_membership_augmented (sig : String → String → Bool) (minScore : Int)
    (requireSignal : Bool) (lookup : List ((String × String × String) × QuestionLoc))
    (tfile : String → String) (st : BatchState) (item : QueueItem) (loc : QuestionLoc)
    (hne : ¬ (item.source_topic = "" ∨ item.source_subcategory = "" ∨
      item.question_id = "" ∨ item.suggested_target_topic = ""))
    (hsc : ¬ item.best_other < minScore)
    (hsig : ¬ (requireSignal ∧ ¬ sig item.question item.suggested_target_topic))
    (hloc : dictLookup lookup
      (item.source_topic, item.source_subcategory, item.question_id) = some loc) :
    (∀ apply : Bool, normalizeStr item.question ≠ "" →
      (item.suggested_target_topic, normalizeStr item.question) ∈ st.norms →
      (processItem sig minScore requireSignal apply lookup tfile st item).actions =
        st.actions ++
          [{ action := "remove_source_duplicate", question_id := item.question_id,
             source_topic := item.source_topic,
             source_subcategory := item.source_subcategory,
             target_topic := item.suggested_target_topic,
             reason := "equivalent_exists_in_target_topic" }]) ∧
    ((item.suggested_target_topic, normalizeStr item.question) ∉ st.norms →
      normalizeStr item.question ≠ "" →
      (append_question_to_target st.corpus item.suggested_target_topic loc.question).1 = true →
      (remove_question_from_source
        (append_question_to_target st.corpus item.suggested_target_topic loc.question).2
        item.source_topic item.source_subcategory loc.index).1 = true →
      (item.suggested_target_topic, normalizeStr item.question) ∈
        (processItem sig minScore requireSignal true lookup tfile st item).norms) := by
  constructor
  · intro apply hnorm hmem
    unfold processItem
    dsimp only
    rw [if_neg hne, if_neg hsc, if_neg hsig, hloc]
    dsimp only
    rw [if_pos (And.intro hnorm hmem)]
  · intro hnmem hnorm hmoved hremoved
    unfold processItem
    dsimp only
    rw [if_neg hne, if_neg hsc, if_neg hsig, hloc]
    dsimp only
    rw [if_neg (fun h => hnmem h.2), if_pos rfl, if_pos (And.intro hmoved hremoved)]
    dsimp only
    rw [if_pos hnorm]
    exact List.mem_append_right _ (List.mem_singleton_self _)

lemma shapeTag_set (s : Subcategory) (qs : List Question) :
    shapeTag { s with questions := s.questions.set qs } = shapeTag s := by
  cases h : s.questions <;> simp [shapeTag, iterate_subcategory_questions, QuestionsField.set, h]

lemma map_modify {α β : Type} (g : α → β) (f : α → α) (h : ∀ a, g (f a) = g a) :
    ∀ (i : ℕ) (l : List α), (l.modify f i).map g = l.map g := by
  intro i l
  induction l generalizing i with
  | nil => cases i <;> rfl
  | cons a l ih =>
    cases i with
    | zero => simp [List.modify, h]
    | succ n => simpa [List.modify] using ih n

lemma tags_updateSub (d : TopicDoc) (sid : String) (f : Subcategory → Subcategory)
    (h : ∀ s, shapeTag (f s) = shapeTag s) :
    (updateSub d sid f).subcategories.map shapeTag = d.subcategories.map shapeTag := by
  unfold updateSub
  cases hf : d.subcategories.findIdx? (fun s => s.id == sid) with
  | none => rfl
  | some i => exact map_modify shapeTag f h i d.subcategories

lemma tags_updateTopic (c : Corpus) (tid : String) (f : TopicDoc → TopicDoc)
    (h : ∀ d, (f d).subcategories.map shapeTag = d.subcategories.map shapeTag) :
    tagsOf (updateTopic c tid f) = tagsOf c := by
  induction c with
  | nil => rfl
  | cons t rest ih =>
    unfold updateTopic
    by_cases ht : t.topic_id = tid
    · simp [tagsOf, ht, h]
    · simpa [tagsOf, ht] using ih

lemma tags_append (c : Corpus) (tgt : String) (q : Question) :
    tagsOf (append_question_to_target c tgt q).2 = tagsOf c := by
  unfold append_question_to_target
  cases dictLookup TARGET_SUBCATEGORY_DEFAULT tgt with
  | none => rfl
  | some ts =>
    dsimp only
    split
    · rfl
    · split
      · exact tags_updateTopic _ _ _ (fun d => tags_updateSub d _ _ (fun s => shapeTag_set s _))
      · rfl

lemma tags_remove (c : Corpus) (src sub : String) (i : ℕ) :
    tagsOf (remove_question_from_source c src sub i).2 = tagsOf c := by
  unfold remove_question_from_source
  split
  · split
    · exact tags_updateTopic _ _ _ (fun d => tags_updateSub d _ _ (fun s => shapeTag_set s _))
    · rfl
  · rfl

lemma tags_cleanupSub (s : Subcategory) : shapeTag (cleanupSub s) = shapeTag s := by
  unfold cleanupSub
  split
  · rfl
  · split
    · rfl
    · exact shapeTag_set s _

lemma tags_reconStep (norms : List (String × String)) (st : ReconState) (a : ActionRec) :
    tagsOf (reconStep norms st a).corpus = tagsOf st.corpus := by
  unfold reconStep
  split
  · rfl
  · split
    · rfl
    · split
      · rfl
      · split
        · rfl
        · split
          · rfl
          · exact tags_updateTopic _ _ _ (fun d => tags_updateSub d _ _ (fun s => shapeTag_set s _))

lemma tags_processItem (sig : String → String → Bool) (ms : Int) (rs apply : Bool)
    (lookup : List ((String × String × String) × QuestionLoc)) (tfile : String → String)
    (st : BatchState) (item : QueueItem) :
    tagsOf (processItem sig ms rs apply lookup tfile st item).corpus = tagsOf st.corpus := by
  unfold processItem
  dsimp only
  repeat' split
  all_goals simp [tags_remove, tags_append]

/-- Claim C9: every mutating pass round-trips the on-disk question-list
shape: the same-subcategory duplicate cleanup, the Batch Mover's append and
removal (and a whole `process_queue` run), and the Reconciler all preserve
each subcategory's nested-vs-flat tag — no pass flattens a nested-shape
subcategory or nests a flat one. -/
theorem c9_shape_round_trip :
    (∀ d : TopicDoc, (cleanup_file d).subcategories.map shapeTag =
      d.subcategories.map shapeTag) ∧
    (∀ (c : Corpus) (tgt : String) (q : Question),
      tagsOf (append_question_to_target c tgt q).2 = tagsOf c) ∧
    (∀ (c : Corpus) (src sub : String) (i : ℕ),
      tagsOf (remove_question_from_source c src sub i).2 = tagsOf c) ∧
    (∀ (sig : String → String → Bool) (ms : Int) (rs apply : Bool) (c : Corpus)
        (items : List QueueItem),
      tagsOf (process_queue sig ms rs apply c items).corpus = tagsOf c) ∧
    (∀ (c : Corpus) (actions : List ActionRec),
      tagsOf (reconcile_run c actions).corpus = tagsOf c) := by
  refine ⟨?_, tags_append, tags_remove, ?_, ?_⟩
  · intro d
    unfold cleanup_file
    simp only [List.map_map]
    exact List.map_congr_left (fun s _ => tags_cleanupSub s)
  · intro sig ms rs apply c items
    unfold process_queue
    generalize sortQueue items = l
    generalize (question_lookup c) = lk
    generalize (topic_to_file c) = tf
    suffices h : ∀ (l : List QueueItem) (st : BatchState),
        tagsOf ((l.foldl (processItem sig ms rs apply lk tf) st)).corpus = tagsOf st.corpus by
      exact h l _
    intro l
    induction l with
    | nil => intro st; rfl
    | cons x xs ih =>
      intro st
      rw [List.foldl_cons, ih, tags_processItem]
  · intro c actions
    unfold reconcile_run
    generalize recon_norms c = norms
    suffices h : ∀ (acts : List ActionRec) (st : ReconState),
        tagsOf ((acts.foldl (reconStep norms) st)).corpus = tagsOf st.corpus by
      exact h actions _
    intro acts
    induction acts with
    | nil => intro st; rfl
    | cons a as ih =>
      intro st
      rw [List.foldl_cons, ih, tags_reconStep]

/-- Claim C5: a question entry with a non-empty token set is flagged by the
relevance scorer iff (a) its own-subcategory score is 0 and its own-topic
score is at most 1 (reason `low_own_topic_subcategory_overlap`), or (b) its
best other-topic score is at least 3 and at least the own-topic score plus 2
(reason `looks_closer_to:<topic>`); when both conditions hold, both reasons
are present. -/
theorem c5_relevance_flag_conditions (entries : List QEntry) (e : QEntry) (he : e ∈ entries)
    (ht : e.tokens ≠ []) :
    (mkFlag entries e ∈ relevance_flags entries ↔
      ((own_subcat_score entries e = 0 ∧ own_topic_score entries e ≤ 1) ∨
       (3 ≤ (bestOther entries e).2 ∧
         own_topic_score entries e + 2 ≤ (bestOther entries e).2))) ∧
    (((own_subcat_score entries e = 0 ∧ own_topic_score entries e ≤ 1) ∧
      (3 ≤ (bestOther entries e).2 ∧
        own_topic_score entries e + 2 ≤ (bestOther entries e).2)) →
      "low_own_topic_subcategory_overlap" ∈ (mkFlag entries e).reasons ∧
      ("looks_closer_to:" ++ (bestOther entries e).1) ∈ (mkFlag entries e).reasons) := by
  have hreasons : relevanceReasons entries e ≠ [] ↔
      ((own_subcat_score entries e = 0 ∧ own_topic_score entries e ≤ 1) ∨
       (3 ≤ (bestOther entries e).2 ∧
         own_topic_score entries e + 2 ≤ (bestOther entries e).2)) := by
    unfold relevanceReasons
    by_cases hA : own_subcat_score entries e = 0 ∧ own_topic_score entries e ≤ 1 <;>
      by_cases hB : 3 ≤ (bestOther entries e).2 ∧
        own_topic_score entries e + 2 ≤ (bestOther entries e).2 <;>
      simp [hA, hB]
  constructor
  · constructor
    · intro hmem
      rw [← hreasons]
      rcases List.mem_filterMap.mp hmem with ⟨a, ha, hfa⟩
      by_cases h1 : a.tokens = []
      · simp [h1] at hfa
      · by_cases h2 : relevanceReasons entries a = []
        · simp [h1, h2] at hfa
        · rw [if_neg h1, if_neg h2] at hfa
          have heq : mkFlag entries a = mkFlag entries e := Option.some.inj hfa
          have hre : relevanceReasons entries a = relevanceReasons entries e :=
            congrArg RelevanceFlag.reasons heq
          rw [← hre]
          exact h2
    · intro hcond
      refine List.mem_filterMap.mpr ⟨e, he, ?_⟩
      rw [if_neg ht, if_neg (hreasons.mpr hcond)]
  · intro ⟨hA, hB⟩
    have : (mkFlag entries e).reasons =
        ["low_own_topic_subcategory_overlap",
         "looks_closer_to:" ++ (bestOther entries e).1] := by
      simp [mkFlag, relevanceReasons, hA, hB]
    rw [this]
    exact ⟨List.mem_cons_self _ _, List.mem_cons_of_mem _ (List.mem_cons_self _ _)⟩

theorem c5_relevance_flag_conditions_witness :
    mkFlag entriesW eW ∈ relevance_flags entriesW ∧
    "low_own_topic_subcategory_overlap" ∈ (mkFlag entriesW eW).reasons ∧
    "looks_closer_to:procurement_act" ∈ (mkFlag entriesW eW).reasons := by
  have h := c5_relevance_flag_conditions entriesW eW (by decide) (by decide)
  have hA : own_subcat_score entriesW eW = 0 ∧ own_topic_score entriesW eW ≤ 1 := by decide
  have hB : 3 ≤ (bestOther entriesW eW).2 ∧
      own_topic_score entriesW eW + 2 ≤ (bestOther entriesW eW).2 := by decide
  have hb1 : (bestOther entriesW eW).1 = "procurement_act" := by decide
  refine ⟨h.1.mpr (Or.inl hA), (h.2 ⟨hA, hB⟩).1, ?_⟩
  have := (h.2 ⟨hA, hB⟩).2
  rwa [hb1] at this

-- counterexample draft
/-- Claim C7 counterexample: a topic whose backing file is present but
malformed is NOT skipped — `load_json` has no exception handler, so
`collect_entries` aborts the whole run even though the topic index itself is
fine. -/
theorem c7_counterexample_malformed_topic_file_aborts :
    (lookupFS fsMalformedTopic "topics.json" =
      some (.topicIndex [{ id := "t1", name := "T", file := "f1" }])) ∧
    collect_entries fsMalformedTopic "topics.json" = Except.error "topic file malformed" := by
  constructor
  · rfl
  · rfl

lemma collect_entries_foldlM (fs : FS) (ts : List TopicMeta) (acc : List QEntry)
    (h : ∀ t ∈ ts, t.file ≠ "" → lookupFS fs t.file ≠ some FileContent.malformed) :
    ts.foldlM (fun acc t =>
      if t.file = "" then pure acc
      else
        match lookupFS fs t.file with
        | none => pure acc
        | some .malformed => Except.error "topic file malformed"
        | some (.topicIndex _) => pure acc
        | some (.topicFile doc) => pure (acc ++ entriesOfTopic t doc)) acc =
      Except.ok (acc ++ ts.flatMap (topicContribution fs)) := by
  induction ts generalizing acc with
  | nil => simp only [List.foldlM_nil, List.flatMap_nil, List.append_nil]; rfl
  | cons t rest ih =>
    rw [List.foldlM_cons]
    by_cases hf : t.file = ""
    · rw [if_pos hf]
      simp only [topicContribution, List.flatMap_cons, if_pos hf, List.nil_append, pure_bind]
      exact ih acc (fun x hx => h x (List.mem_cons_of_mem _ hx))
    · rw [if_neg hf]
      have hm := h t (List.mem_cons_self _ _) hf
      cases hc : lookupFS fs t.file with
      | none =>
        simp only [topicContribution, List.flatMap_cons, if_neg hf, hc, List.nil_append,
          pure_bind]
        exact ih acc (fun x hx => h x (List.mem_cons_of_mem _ hx))
      | some content =>
        cases content with
        | malformed => exact absurd hc hm
        | topicIndex its =>
          simp only [topicContribution, List.flatMap_cons, if_neg hf, hc, List.nil_append,
            pure_bind]
          exact ih acc (fun x hx => h x (List.mem_cons_of_mem _ hx))
        | topicFile doc =>
          simp only [topicContribution, List.flatMap_cons, if_neg hf, hc, pure_bind]
          rw [← List.append_assoc]
          exact ih _ (fun x hx => h x (List.mem_cons_of_mem _ hx))

/-- Claim C7 amended: the loader tolerates only ABSENT backing files: a
missing or empty-path topic file is skipped and contributes zero entries and
the run completes; the topic-index file being missing or malformed is fatal;
and (per the counterexample) a present-but-malformed backing file also aborts
the run, so the no-abort conclusion holds under the hypothesis that no
declared backing file is present-but-malformed. -/
theorem c7_loader_tolerance_amended :
    (∀ (fs : FS) (tp : String), lookupFS fs tp = none →
      collect_entries fs tp = Except.error "topics index missing") ∧
    (∀ (fs : FS) (tp : String), lookupFS fs tp = some FileContent.malformed →
      collect_entries fs tp = Except.error "topics index malformed") ∧
    (∀ (fs : FS) (tp : String) (ts : List TopicMeta),
      lookupFS fs tp = some (FileContent.topicIndex ts) →
      (∀ t ∈ ts, t.file ≠ "" → lookupFS fs t.file ≠ some FileContent.malformed) →
      collect_entries fs tp = Except.ok (ts.flatMap (topicContribution fs))) ∧
    (∀ (fs : FS) (t : TopicMeta), lookupFS fs t.file = none →
      topicContribution fs t = []) := by
  refine ⟨?_, ?_, ?_, ?_⟩
  · intro fs tp h
    unfold collect_entries
    rw [h]
    rfl
  · intro fs tp h
    unfold collect_entries
    rw [h]
    rfl
  · intro fs tp ts h hok
    unfold collect_entries
    rw [h]
    show ts.foldlM _ [] = _
    simpa using collect_entries_foldlM fs ts [] hok
  · intro fs t h
    unfold topicContribution
    by_cases hf : t.file = ""
    · rw [if_pos hf]
    · rw [if_neg hf, h]

theorem c7_loader_tolerance_amended_witness :
    collect_entries [] "topics.json" = Except.error "topics index missing" ∧
    collect_entries [("topics.json", FileContent.malformed)] "topics.json" =
      Except.error "topics index malformed" ∧
    collect_entries fsGood "topics.json" =
      Except.ok [mkQEntry "t1" "T" "s1" "S" "f1" qA1] ∧
    topicContribution fsGood { id := "t2", name := "U", file := "fmissing" } = [] := by
  have h := c7_loader_tolerance_amended
  refine ⟨h.1 [] "topics.json" (by decide),
    h.2.1 [("topics.json", FileContent.malformed)] "topics.json" (by decide), ?_,
    h.2.2.2 fsGood _ (by decide)⟩
  have h3 := h.2.2.1 fsGood "topics.json"
    [{ id := "t1", name := "T", file := "f1" },
     { id := "t2", name := "U", file := "fmissing" }] (by decide) (by decide)
  rw [h3]
  rfl

lemma outChar_space : OutChar ' ' := Or.inr (Or.inr rfl)

lemma isLowerAlnum_iff {c : Char} :
    isLowerAlnum c = true ↔ ((97 ≤ c.toNat ∧ c.toNat ≤ 122) ∨ (48 ≤ c.toNat ∧ c.toNat ≤ 57)) := by
  simp [isLowerAlnum]

lemma pyIsSpace_iff {c : Char} :
    pyIsSpace c = true ↔ (c.toNat = 32 ∨ (9 ≤ c.toNat ∧ c.toNat ≤ 13) ∨
      (28 ≤ c.toNat ∧ c.toNat ≤ 31) ∨ c.toNat = 133 ∨ c.toNat = 160 ∨ c.toNat = 5760 ∨
      (8192 ≤ c.toNat ∧ c.toNat ≤ 8202) ∨ c.toNat = 8232 ∨ c.toNat = 8233 ∨
      c.toNat = 8239 ∨ c.toNat = 8287 ∨ c.toNat = 12288) := by
  simp [pyIsSpace]

lemma not_space_of_alnum {c : Char} (h : isLowerAlnum c = true) : pyIsSpace c = false := by
  rcases isLowerAlnum_iff.mp h with h1 | h1 <;>
    · rw [Bool.eq_false_iff]
      intro hs
      rcases pyIsSpace_iff.mp hs with h2 | h2 | h2 | h2 | h2 | h2 | h2 | h2 | h2 | h2 | h2 | h2 <;>
        omega

lemma outChar_space_eq {c : Char} (ho : OutChar c) (hs : pyIsSpace c = true) : c = ' ' := by
  rcases ho with h1 | h1 | rfl
  · exact absurd hs (by rw [not_space_of_alnum (isLowerAlnum_iff.mpr (Or.inl h1))]; decide)
  · exact absurd hs (by rw [not_space_of_alnum (isLowerAlnum_iff.mpr (Or.inr h1))]; decide)
  · rfl

lemma outChar_of_alnum {c : Char} (h : isLowerAlnum c = true) : OutChar c := by
  rcases isLowerAlnum_iff.mp h with h1 | h1
  · exact Or.inl h1
  · exact Or.inr (Or.inl h1)

/-- Every character after the lower/replace steps is `[a-z0-9]` or whitespace. -/
lemma mid_of_step2 (l : List Char) :
    ∀ c ∈ (l.map pyLowerChar).map keepAlnumSpace, (isLowerAlnum c || pyIsSpace c) = true := by
  intro c hc
  rcases List.mem_map.mp hc with ⟨d, _, rfl⟩
  unfold keepAlnumSpace
  by_cases h : (isLowerAlnum d || pyIsSpace d) = true
  · rwa [if_pos h]
  · rw [if_neg h]
    decide

/-- The head of `collapseWs` is the head of the input, with whitespace mapped
to a space. -/
lemma collapseWs_head (l : List Char) :
    (collapseWs l).head? = l.head?.map (fun c => if pyIsSpace c then ' ' else c) := by
  induction l using collapseWs.induct with
  | case1 => rfl
  | case2 c h => simp [collapseWs, h]
  | case3 c h => simp [collapseWs, h]
  | case4 c1 c2 rest hb ih =>
    have h1 : pyIsSpace c1 = true := (Bool.and_eq_true_iff.mp hb).1
    have h2 : pyIsSpace c2 = true := (Bool.and_eq_true_iff.mp hb).2
    rw [collapseWs, if_pos hb, ih]
    simp [h1, h2]
  | case5 c1 c2 rest hb ih =>
    rw [collapseWs, if_neg hb]
    simp

/-- Characters of the collapsed list: `[a-z0-9]` or a literal space. -/
lemma collapseWs_out (l : List Char) (h : ∀ c ∈ l, (isLowerAlnum c || pyIsSpace c) = true) :
    ∀ c ∈ collapseWs l, OutChar c := by
  induction l using collapseWs.induct with
  | case1 => intro c hc; cases hc
  | case2 c hs =>
    intro x hx
    rw [collapseWs, if_pos hs] at hx
    rcases List.mem_singleton.mp hx with rfl
    exact outChar_space
  | case3 c hs =>
    intro x hx
    rw [collapseWs, if_neg hs] at hx
    rcases List.mem_singleton.mp hx with rfl
    have := h x (List.mem_singleton_self x)
    rcases Bool.or_eq_true_iff.mp this with ha | hsp
    · exact outChar_of_alnum ha
    · exact absurd hsp hs
  | case4 c1 c2 rest hb ih =>
    intro x hx
    rw [collapseWs, if_pos hb] at hx
    exact ih (fun d hd => h d (List.mem_cons_of_mem _ hd)) x hx
  | case5 c1 c2 rest hb ih =>
    intro x hx
    rw [collapseWs, if_neg hb] at hx
    rcases List.mem_cons.mp hx with rfl | hx2
    · by_cases hs : pyIsSpace c1 = true
      · rw [if_pos hs]; exact outChar_space
      · rw [if_neg hs]
        have := h c1 (List.mem_cons_self _ _)
        rcases Bool.or_eq_true_iff.mp this with ha | hsp
        · exact outChar_of_alnum ha
        · exact absurd hsp hs
    · exact ih (fun d hd => h d (List.mem_cons_of_mem _ hd)) x hx2

/-- No two adjacent whitespace characters survive collapsing. -/
lemma collapseWs_chain (l : List Char) :
    (collapseWs l).Chain' (fun a b => ¬(pyIsSpace a = true ∧ pyIsSpace b = true)) := by
  induction l using collapseWs.induct with
  | case1 => exact List.chain'_nil
  | case2 c hs => simp [collapseWs, hs]
  | case3 c hs => simp [collapseWs, hs]
  | case4 c1 c2 rest hb ih =>
    rw [collapseWs, if_pos hb]
    exact ih
  | case5 c1 c2 rest hb ih =>
    rw [collapseWs, if_neg hb]
    refine List.chain'_cons'.mpr ⟨?_, ih⟩
    intro y hy
    rw [collapseWs_head] at hy
    have hy2 : y = if pyIsSpace c2 = true then ' ' else c2 := by
      simpa using hy.symm
    subst hy2
    refine fun hcon => ?_
    rcases hcon with ⟨ha, hb2⟩
    by_cases h2 : pyIsSpace c2 = true
    · have h1 : pyIsSpace c1 = true := by
        by_cases h1 : pyIsSpace c1 = true
        · exact h1
        · rw [if_neg h1] at ha
          exact absurd ha h1
      exact absurd (Bool.and_eq_true_iff.mpr ⟨h1, h2⟩) (by simpa using hb)
    · rw [if_neg h2] at hb2
      exact absurd hb2 h2

/-- Collapsing fixes a list whose characters are `[a-z0-9 ]` with no two
adjacent spaces. -/
lemma collapseWs_fix (l : List Char) (hout : ∀ c ∈ l, OutChar c)
    (hch : l.Chain' (fun a b => ¬(pyIsSpace a = true ∧ pyIsSpace b = true))) :
    collapseWs l = l := by
  induction l using collapseWs.induct with
  | case1 => rfl
  | case2 c hs =>
    rw [collapseWs, if_pos hs, outChar_space_eq (hout c (List.mem_singleton_self c)) hs]
  | case3 c hs =>
    rw [collapseWs, if_neg hs]
  | case4 c1 c2 rest hb ih =>
    rcases Bool.and_eq_true_iff.mp hb with ⟨h1, h2⟩
    exact absurd ⟨h1, h2⟩ ((List.chain'_cons.mp hch).1)
  | case5 c1 c2 rest hb ih =>
    rw [collapseWs, if_neg hb]
    have htail := (List.chain'_cons'.mp hch).2
    rw [ih (fun d hd => hout d (List.mem_cons_of_mem _ hd)) htail]
    by_cases hs : pyIsSpace c1 = true
    · rw [if_pos hs, outChar_space_eq (hout c1 (List.mem_cons_self _ _)) hs]
    · rw [if_neg hs]

lemma head?_dropWhile (p : Char → Bool) (l : List Char) :
    ∀ c, ((l.dropWhile p).head? = some c) → p c = false := by
  induction l with
  | nil => intro c hc; cases hc
  | cons a l ih =>
    intro c hc
    by_cases h : p a = true
    · rw [List.dropWhile_cons_of_pos h] at hc
      exact ih c hc
    · rw [List.dropWhile_cons_of_neg h] at hc
      rcases Option.some.inj hc with rfl
      exact Bool.eq_false_iff.mpr h

lemma dropWhile_suffix_mem (p : Char → Bool) (l : List Char) :
    ∀ c ∈ l.dropWhile p, c ∈ l := by
  intro c hc
  exact (List.dropWhile_sublist p).mem hc

lemma pyLower_fix {c : Char} (h : OutChar c) : pyLowerChar c = c := by
  unfold pyLowerChar
  rcases h with ⟨h1, h2⟩ | ⟨h1, h2⟩ | rfl
  · rw [if_neg (by omega)]
  · rw [if_neg (by omega)]
  · rw [if_neg (by decide)]

lemma keepAlnumSpace_fix {c : Char} (h : OutChar c) : keepAlnumSpace c = c := by
  unfold keepAlnumSpace
  rcases h with h1 | h1 | rfl
  · rw [if_pos (by rw [Bool.or_eq_true_iff]; exact Or.inl (isLowerAlnum_iff.mpr (Or.inl h1)))]
  · rw [if_pos (by rw [Bool.or_eq_true_iff]; exact Or.inl (isLowerAlnum_iff.mpr (Or.inr h1)))]
  · rw [if_pos (by decide)]

lemma pyStrip_prefix_dropWhile (l : List Char) :
    pyStrip l <+: l.dropWhile pyIsSpace := by
  unfold pyStrip
  rw [← List.reverse_suffix]
  simpa using List.dropWhile_suffix pyIsSpace
    (l := (List.dropWhile pyIsSpace l).reverse)

lemma pyStrip_infixOf (l : List Char) : pyStrip l <:+: l :=
  (pyStrip_prefix_dropWhile l).isInfix.trans (List.dropWhile_suffix pyIsSpace).isInfix

lemma pyStrip_mem (l : List Char) : ∀ c ∈ pyStrip l, c ∈ l := by
  intro c hc
  exact (pyStrip_infixOf l).sublist.mem hc

lemma pyStrip_head (l : List Char) :
    ∀ c, (pyStrip l).head? = some c → pyIsSpace c = false := by
  intro c hc
  rcases pyStrip_prefix_dropWhile l with ⟨s, hs⟩
  apply head?_dropWhile pyIsSpace l c
  rw [← hs]
  cases hu : pyStrip l with
  | nil => rw [hu] at hc; cases hc
  | cons a u2 =>
    rw [hu] at hc
    rcases Option.some.inj hc with rfl
    rfl

lemma pyStrip_getLast (l : List Char) :
    ∀ c, (pyStrip l).getLast? = some c → pyIsSpace c = false := by
  intro c hc
  rw [List.getLast?_eq_head?_reverse] at hc
  unfold pyStrip at hc
  rw [List.reverse_reverse] at hc
  exact head?_dropWhile pyIsSpace _ c hc

lemma pyStrip_fix (l : List Char)
    (hh : ∀ c, l.head? = some c → pyIsSpace c = false)
    (hl : ∀ c, l.getLast? = some c → pyIsSpace c = false) :
    pyStrip l = l := by
  unfold pyStrip
  have h1 : l.dropWhile pyIsSpace = l := by
    cases l with
    | nil => rfl
    | cons a l2 =>
      exact List.dropWhile_cons_of_neg
        (by rw [hh a rfl]; exact fun h => nomatch h)
  rw [h1]
  have h2 : l.reverse.dropWhile pyIsSpace = l.reverse := by
    cases hr : l.reverse with
    | nil => rfl
    | cons a r2 =>
      refine List.dropWhile_cons_of_neg ?_
      have : l.getLast? = some a := by
        rw [List.getLast?_eq_head?_reverse, hr]
        rfl
      rw [hl a this]
      exact fun h => nomatch h
  rw [h2, List.reverse_reverse]

/-- Claim C8: for every string, `normalize_text` emits only characters from
`[a-z0-9 ]` (code points 97..122, 48..57, or the space), never two
consecutive spaces, no leading and no trailing space, and is idempotent:
normalizing a normalized string changes nothing. -/
theorem c8_normalize_idempotent_alphabet (s : String) :
    (∀ c ∈ (normalizeStr s).data,
      (97 ≤ c.toNat ∧ c.toNat ≤ 122) ∨ (48 ≤ c.toNat ∧ c.toNat ≤ 57) ∨ c = ' ') ∧
    (normalizeStr s).data.Chain' (fun a b => ¬(a = ' ' ∧ b = ' ')) ∧
    (normalizeStr s).data.head? ≠ some ' ' ∧
    (normalizeStr s).data.getLast? ≠ some ' ' ∧
    normalizeStr (normalizeStr s) = normalizeStr s := by
  have hdata : (normalizeStr s).data = normalize_text s.data := rfl
  set m := (s.data.map pyLowerChar).map keepAlnumSpace with hm
  have hN : normalize_text s.data = pyStrip (collapseWs m) := rfl
  have hmid : ∀ c ∈ m, (isLowerAlnum c || pyIsSpace c) = true := mid_of_step2 s.data
  have hout0 : ∀ c ∈ collapseWs m, OutChar c := collapseWs_out m hmid
  have houtN : ∀ c ∈ normalize_text s.data, OutChar c := by
    rw [hN]
    intro c hc
    exact hout0 c (pyStrip_mem _ c hc)
  have hch0 := collapseWs_chain m
  have hchN : (normalize_text s.data).Chain'
      (fun a b => ¬(pyIsSpace a = true ∧ pyIsSpace b = true)) := by
    rw [hN]
    exact hch0.infix (pyStrip_infixOf _)
  have hheadN : ∀ c, (normalize_text s.data).head? = some c → pyIsSpace c = false := by
    rw [hN]; exact pyStrip_head _
  have hlastN : ∀ c, (normalize_text s.data).getLast? = some c → pyIsSpace c = false := by
    rw [hN]; exact pyStrip_getLast _
  refine ⟨?_, ?_, ?_, ?_, ?_⟩
  · rw [hdata]; exact houtN
  · rw [hdata]
    refine hchN.imp (fun a b h => ?_)
    rintro ⟨rfl, rfl⟩
    exact h ⟨by decide, by decide⟩
  · rw [hdata]
    intro h
    exact absurd (hheadN ' ' h) (by decide)
  · rw [hdata]
    intro h
    exact absurd (hlastN ' ' h) (by decide)
  · show (⟨normalize_text (normalizeStr s).data⟩ : String) = ⟨normalize_text s.data⟩
    rw [hdata]
    congr 1
    set N := normalize_text s.data with hNdef
    show normalize_text N = N
    unfold normalize_text
    have e1 : N.map pyLowerChar = N := by
      rw [List.map_congr_left (fun c hc => pyLower_fix (houtN c hc))]
      exact List.map_id N
    have e2 : N.map keepAlnumSpace = N := by
      rw [List.map_congr_left (fun c hc => keepAlnumSpace_fix (houtN c hc))]
      exact List.map_id N
    rw [e1, e2, collapseWs_fix N houtN hchN]
    exact pyStrip_fix N hheadN hlastN

theorem c8_normalize_idempotent_alphabet_witness :
    normalizeStr (normalizeStr "  Ab,(  C9! ") = normalizeStr "  Ab,(  C9! " ∧
    ((97 ≤ 'a'.toNat ∧ 'a'.toNat ≤ 122) ∨ (48 ≤ 'a'.toNat ∧ 'a'.toNat ≤ 57) ∨ 'a' = ' ') := by
  have h := c8_normalize_idempotent_alphabet "  Ab,(  C9! "
  exact ⟨h.2.2.2.2, h.1 'a' (by decide)⟩

lemma firstDedup_aux_mem {α : Type} [DecidableEq α] (l : List α) :
    ∀ (acc : List α) (y : α),
      (y ∈ l.foldl (fun acc x => if x ∈ acc then acc else acc ++ [x]) acc) ↔
        (y ∈ acc ∨ y ∈ l) := by
  induction l with
  | nil => intro acc y; simp
  | cons x xs ih =>
    intro acc y
    rw [List.foldl_cons]
    by_cases hx : x ∈ acc
    · rw [if_pos hx, ih]
      constructor
      · rintro (h | h)
        · exact Or.inl h
        · exact Or.inr (List.mem_cons_of_mem _ h)
      · rintro (h | h)
        · exact Or.inl h
        · rcases List.mem_cons.mp h with rfl | h2
          · exact Or.inl hx
          · exact Or.inr h2
    · rw [if_neg hx, ih]
      constructor
      · rintro (h | h)
        · rcases List.mem_append.mp h with h2 | h2
          · exact Or.inl h2
          · exact Or.inr (List.mem_cons.mpr (Or.inl (List.mem_singleton.mp h2)))
        · exact Or.inr (List.mem_cons_of_mem _ h)
      · rintro (h | h)
        · exact Or.inl (List.mem_append.mpr (Or.inl h))
        · rcases List.mem_cons.mp h with rfl | h2
          · exact Or.inl (List.mem_append.mpr (Or.inr (List.mem_singleton_self _)))
          · exact Or.inr h2

lemma mem_firstDedup {α : Type} [DecidableEq α] (l : List α) (y : α) :
    y ∈ firstDedup l ↔ y ∈ l := by
  unfold firstDedup
  rw [firstDedup_aux_mem]
  simp

lemma firstDedup_aux_nodup {α : Type} [DecidableEq α] (l : List α) :
    ∀ acc : List α, acc.Nodup →
      (l.foldl (fun acc x => if x ∈ acc then acc else acc ++ [x]) acc).Nodup := by
  induction l with
  | nil => intro acc h; exact h
  | cons x xs ih =>
    intro acc h
    rw [List.foldl_cons]
    by_cases hx : x ∈ acc
    · rw [if_pos hx]; exact ih acc h
    · rw [if_neg hx]
      refine ih _ ?_
      rw [List.nodup_append]
      exact ⟨h, List.nodup_singleton x, by simpa using hx⟩

lemma nodup_firstDedup {α : Type} [DecidableEq α] (l : List α) :
    (firstDedup l).Nodup :=
  firstDedup_aux_nodup l [] List.nodup_nil

/-- `stepPair` either skips (state unchanged) or reports a fresh pair
satisfying the reporting condition. -/
lemma stepPair_cases (t : ℚ) (r : String → String → ℚ) (st : ScanState)
    (q : (ℕ × QEntry) × (ℕ × QEntry)) :
    stepPair t r st q = st ∨
      (pairOf q ∉ st.seen ∧ scanDecision t r q ∧
        stepPair t r st q =
          { seen := pairOf q :: st.seen, out := st.out ++ [mkNearDup r q] }) := by
  unfold stepPair
  dsimp only
  split
  · exact Or.inl rfl
  · split
    · exact Or.inl rfl
    · split
      · rename_i h1 h2 h3
        exact Or.inr ⟨h1, ⟨h2, h3⟩, rfl⟩
      · exact Or.inl rfl

/-- `stepPair` only appends to the output. -/
lemma scan_out_mono (t : ℚ) (r : String → String → ℚ)
    (l : List ((ℕ × QEntry) × (ℕ × QEntry))) (st : ScanState) :
    ∀ rep ∈ st.out, rep ∈ (l.foldl (stepPair t r) st).out := by
  induction l generalizing st with
  | nil => intro rep h; exact h
  | cons q qs ih =>
    intro rep h
    rw [List.foldl_cons]
    refine ih _ rep ?_
    rcases stepPair_cases t r st q with he | ⟨_, _, he⟩ <;> rw [he]
    · exact h
    · exact List.mem_append_left _ h

/-- Every report added by the scan comes from a scanned pair satisfying the
reporting condition. -/
lemma scan_out_source (t : ℚ) (r : String → String → ℚ)
    (l : List ((ℕ × QEntry) × (ℕ × QEntry))) (st : ScanState) :
    ∀ rep ∈ (l.foldl (stepPair t r) st).out,
      rep ∈ st.out ∨ ∃ q ∈ l, (rep.idx_a, rep.idx_b) = pairOf q ∧ scanDecision t r q := by
  induction l generalizing st with
  | nil => intro rep h; exact Or.inl h
  | cons q qs ih =>
    intro rep h
    rw [List.foldl_cons] at h
    rcases ih _ rep h with h2 | ⟨q2, hq2, he, hd⟩
    · rcases stepPair_cases t r st q with he | ⟨_, hd, he⟩
      · rw [he] at h2
        exact Or.inl h2
      · rw [he] at h2
        rcases List.mem_append.mp h2 with h3 | h3
        · exact Or.inl h3
        · rcases List.mem_singleton.mp h3 with rfl
          exact Or.inr ⟨q, List.mem_cons_self _ _, rfl, hd⟩
    · exact Or.inr ⟨q2, List.mem_cons_of_mem _ hq2, he, hd⟩

/-- The seen set grows only by scanned index pairs. -/
lemma scan_seen_source (t : ℚ) (r : String → String → ℚ)
    (l : List ((ℕ × QEntry) × (ℕ × QEntry))) (st : ScanState) :
    ∀ pr ∈ (l.foldl (stepPair t r) st).seen, pr ∈ st.seen ∨ pr ∈ l.map pairOf := by
  induction l generalizing st with
  | nil => intro pr h; exact Or.inl h
  | cons q qs ih =>
    intro pr h
    rw [List.foldl_cons] at h
    rcases ih _ pr h with h2 | h2
    · rcases stepPair_cases t r st q with he | ⟨_, _, he⟩
      · rw [he] at h2
        exact Or.inl h2
      · rw [he] at h2
        rcases List.mem_cons.mp h2 with rfl | h3
        · exact Or.inr (List.mem_map.mpr ⟨q, List.mem_cons_self _ _, rfl⟩)
        · exact Or.inl h3
    · exact Or.inr (List.map_subset _ (List.subset_cons_self _ _) h2)

/-- A scanned pair satisfying the reporting condition is reported, provided
no two scanned pairs share an index pair and none is pre-seen. -/
lemma scan_reported (t : ℚ) (r : String → String → ℚ)
    (l : List ((ℕ × QEntry) × (ℕ × QEntry))) (st : ScanState)
    (hnd : (l.map pairOf).Nodup)
    (hseen : ∀ q ∈ l, pairOf q ∉ st.seen) :
    ∀ p ∈ l, scanDecision t r p →
      ∃ rep ∈ (l.foldl (stepPair t r) st).out, (rep.idx_a, rep.idx_b) = pairOf p := by
  induction l generalizing st with
  | nil => intro p hp; cases hp
  | cons q qs ih =>
    intro p hp hd
    rw [List.foldl_cons]
    rw [List.map_cons, List.nodup_cons] at hnd
    rcases List.mem_cons.mp hp with rfl | hp2
    · have hns : pairOf p ∉ st.seen := hseen p (List.mem_cons_self _ _)
      have hstep : stepPair t r st p =
          { seen := pairOf p :: st.seen, out := st.out ++ [mkNearDup r p] } := by
        rcases stepPair_cases t r st p with he | ⟨_, _, he⟩
        · exfalso
          unfold stepPair at he
          dsimp only at he
          have hns2 : (p.1.1, p.2.1) ∉ st.seen := hns
          rw [if_neg hns2, if_neg hd.1, if_pos hd.2] at he
          have := congrArg ScanState.seen he
          dsimp only at this
          exact hns (this ▸ List.mem_cons_self _ _)
        · exact he
      rw [hstep]
      exact ⟨mkNearDup r p,
        scan_out_mono t r qs _ _ (List.mem_append_right _ (List.mem_singleton_self _)), rfl⟩
    · rcases stepPair_cases t r st q with he | ⟨_, _, he⟩ <;> rw [he]
      · exact ih _ hnd.2 (fun q2 hq2 => hseen q2 (List.mem_cons_of_mem _ hq2)) p hp2 hd
      · refine ih _ hnd.2 ?_ p hp2 hd
        intro q2 hq2
        dsimp only
        intro hmem
        rcases List.mem_cons.mp hmem with he2 | he2
        · exact hnd.1 (he2 ▸ List.mem_map.mpr ⟨q2, hq2, rfl⟩)
        · exact hseen q2 (List.mem_cons_of_mem _ hq2) he2

/-- The reported index pairs are distinct. -/
lemma scan_nodup (t : ℚ) (r : String → String → ℚ)
    (l : List ((ℕ × QEntry) × (ℕ × QEntry))) (st : ScanState)
    (hsub : ∀ rep ∈ st.out, (rep.idx_a, rep.idx_b) ∈ st.seen)
    (hnd : (st.out.map (fun rep => (rep.idx_a, rep.idx_b))).Nodup) :
    ((l.foldl (stepPair t r) st).out.map (fun rep => (rep.idx_a, rep.idx_b))).Nodup := by
  induction l generalizing st with
  | nil => exact hnd
  | cons q qs ih =>
    rw [List.foldl_cons]
    rcases stepPair_cases t r st q with he | ⟨hns, _, he⟩ <;> rw [he]
    · exact ih st hsub hnd
    · refine ih _ ?_ ?_
      · intro rep h
        dsimp only at h ⊢
        rcases List.mem_append.mp h with h2 | h2
        · exact List.mem_cons_of_mem _ (hsub rep h2)
        · rcases List.mem_singleton.mp h2 with rfl
          exact List.mem_cons_self _ _
      · dsimp only
        rw [List.map_append, List.nodup_append]
        refine ⟨hnd, by simp, ?_⟩
        intro pr hpr hmem
        rcases List.mem_map.mp hpr with ⟨rep, hrep, he2⟩
        have h1 : pr ∈ st.seen := he2 ▸ hsub rep hrep
        have h2 : pr = pairOf q := by
          simpa [mkNearDup, pairOf] using hmem
        exact hns (h2 ▸ h1)

lemma orderedPairs_sound {α : Type} {R : α → α → Prop} (l : List α) (hp : l.Pairwise R)
    (x y : α) (h : (x, y) ∈ orderedPairs l) : x ∈ l ∧ y ∈ l ∧ R x y := by
  induction l with
  | nil => cases h
  | cons a tl ih =>
    rw [List.pairwise_cons] at hp
    unfold orderedPairs at h
    rcases List.mem_append.mp h with h2 | h2
    · rcases List.mem_map.mp h2 with ⟨b, hb, he⟩
      injection he with h3 h4
      subst h3
      subst h4
      exact ⟨List.mem_cons_self _ _, List.mem_cons_of_mem _ hb, hp.1 b hb⟩
    · rcases ih hp.2 h2 with ⟨h3, h4, h5⟩
      exact ⟨List.mem_cons_of_mem _ h3, List.mem_cons_of_mem _ h4, h5⟩

lemma mem_orderedPairs_of_lt (l : List (ℕ × QEntry))
    (hp : l.Pairwise (fun p q => p.1 < q.1)) (x y : ℕ × QEntry)
    (hx : x ∈ l) (hy : y ∈ l) (hlt : x.1 < y.1) : (x, y) ∈ orderedPairs l := by
  induction l with
  | nil => cases hx
  | cons a tl ih =>
    rw [List.pairwise_cons] at hp
    unfold orderedPairs
    rcases List.mem_cons.mp hx with rfl | hx2
    · have hy2 : y ∈ tl := by
        rcases List.mem_cons.mp hy with rfl | h
        · omega
        · exact h
      exact List.mem_append_left _ (List.mem_map.mpr ⟨y, hy2, rfl⟩)
    · have hy2 : y ∈ tl := by
        rcases List.mem_cons.mp hy with rfl | h
        · exact absurd (hp.1 x hx2) (by omega)
        · exact h
      exact List.mem_append_right _ (ih hp.2 hx2 hy2)

lemma nodup_pairs_orderedPairs (l : List (ℕ × QEntry))
    (hp : l.Pairwise (fun p q => p.1 < q.1)) :
    ((orderedPairs l).map pairOf).Nodup := by
  induction l with
  | nil => exact List.nodup_nil
  | cons a tl ih =>
    rw [List.pairwise_cons] at hp
    unfold orderedPairs
    rw [List.map_append, List.nodup_append]
    refine ⟨?_, ih hp.2, ?_⟩
    · rw [List.map_map]
      have : (pairOf ∘ fun b => (a, b)) = fun (b : ℕ × QEntry) => (a.1, b.1) := rfl
      rw [this]
      have hsnd : tl.Pairwise (fun p q : ℕ × QEntry => p.1 < q.1) := hp.2
      exact hsnd.map _ (fun p q hlt => by
        intro he
        rcases Prod.mk.injEq .. ▸ he with ⟨_, h2⟩
        omega)
    · intro pr hpr hmem
      rcases List.mem_map.mp hpr with ⟨⟨x, y⟩, hxy, he⟩
      rcases List.mem_map.mp hxy with ⟨b, hb, he2⟩
      rcases Prod.mk.injEq .. ▸ he2 with ⟨rfl, rfl⟩
      rcases List.mem_map.mp hmem with ⟨⟨x2, y2⟩, hxy2, he3⟩
      rcases orderedPairs_sound tl hp.2 x2 y2 hxy2 with ⟨hx2, _, _⟩
      have h1 : pr.1 = a.1 := by rw [← he]; rfl
      have h2 : pr.1 = x2.1 := by rw [← he3]; rfl
      have := hp.1 x2 hx2
      omega

lemma enum_pairwise_lt {α : Type} (l : List α) :
    l.enum.Pairwise (fun p q => p.1 < q.1) := by
  have h := List.pairwise_lt_range l.length
  rw [← List.enum_map_fst l] at h
  exact List.pairwise_map.mp h

lemma enum_functional {α : Type} (l : List α) (i : ℕ) (a b : α)
    (ha : (i, a) ∈ l.enum) (hb : (i, b) ∈ l.enum) : a = b := by
  rw [List.mem_enum_iff_getElem?] at ha hb
  rw [ha] at hb
  exact Option.some.inj hb

lemma mem_bucketFor (entries : List QEntry) (k : String × ℕ) (x : ℕ × QEntry) :
    x ∈ bucketFor entries k ↔ x ∈ entries.enum ∧ bkey x.2 = k := by
  unfold bucketFor
  rw [List.mem_filter]
  simp

lemma bucketFor_pairwise (entries : List QEntry) (k : String × ℕ) :
    (bucketFor entries k).Pairwise (fun p q => p.1 < q.1) :=
  (enum_pairwise_lt entries).filter _

lemma foldl_flatMap {α β σ : Type} (g : σ → α → σ) (h : β → List α) (bs : List β)
    (st : σ) :
    (bs.flatMap h).foldl g st = bs.foldl (fun s b => (h b).foldl g s) st := by
  induction bs generalizing st with
  | nil => rfl
  | cons b bs ih => rw [List.flatMap_cons, List.foldl_append, List.foldl_cons, ih]

lemma near_duplicates_eq_scan (t : ℚ) (r : String → String → ℚ)
    (entries : List QEntry) :
    near_duplicates t r entries =
      ((allPairs entries).foldl (stepPair t r) { seen := [], out := [] }).out := by
  unfold near_duplicates allPairs
  rw [foldl_flatMap]

lemma allPairs_components (entries : List QEntry)
    (pq : (ℕ × QEntry) × (ℕ × QEntry)) (h : pq ∈ allPairs entries) :
    pq.1 ∈ entries.enum ∧ pq.2 ∈ entries.enum ∧ pq.1.1 < pq.2.1 ∧
      bkey pq.1.2 = bkey pq.2.2 := by
  unfold allPairs bucketsOf at h
  rcases List.mem_flatMap.mp h with ⟨bk, hbk, hpq⟩
  rcases List.mem_map.mp hbk with ⟨k, _, rfl⟩
  obtain ⟨x, y⟩ := pq
  rcases orderedPairs_sound _ (bucketFor_pairwise entries k) x y hpq with ⟨hx, hy, hlt⟩
  rcases (mem_bucketFor entries k x).mp hx with ⟨hx1, hx2⟩
  rcases (mem_bucketFor entries k y).mp hy with ⟨hy1, hy2⟩
  exact ⟨hx1, hy1, hlt, by rw [hx2, hy2]⟩

lemma allPairs_nodup (entries : List QEntry) :
    ((allPairs entries).map pairOf).Nodup := by
  unfold allPairs bucketsOf
  have hkeys := nodup_firstDedup (entries.map bkey)
  generalize hks : firstDedup (entries.map bkey) = ks at hkeys
  clear hks
  induction ks with
  | nil => exact List.nodup_nil
  | cons k ks ih =>
    rw [List.nodup_cons] at hkeys
    rw [List.map_cons, List.flatMap_cons, List.map_append, List.nodup_append]
    refine ⟨nodup_pairs_orderedPairs _ (bucketFor_pairwise entries k), ih hkeys.2, ?_⟩
    intro pr hpr hmem
    rcases List.mem_map.mp hpr with ⟨⟨x, y⟩, hxy, he⟩
    rcases orderedPairs_sound _ (bucketFor_pairwise entries k) x y hxy with ⟨hx, _, _⟩
    rcases (mem_bucketFor entries k x).mp hx with ⟨hx1, hx2⟩
    rcases List.mem_map.mp hmem with ⟨⟨x2, y2⟩, hxy2, he2⟩
    rcases List.mem_flatMap.mp hxy2 with ⟨bk2, hbk2, hpq2⟩
    rcases List.mem_map.mp hbk2 with ⟨k2, hk2, rfl⟩
    rcases orderedPairs_sound _ (bucketFor_pairwise entries k2) x2 y2 hpq2 with ⟨hx21, _, _⟩
    rcases (mem_bucketFor entries k2 x2).mp hx21 with ⟨hx22, hx23⟩
    have hi : x.1 = x2.1 := by
      have e1 : pr.1 = x.1 := by rw [← he]; rfl
      have e2 : pr.1 = x2.1 := by rw [← he2]; rfl
      omega
    have hsame : x.2 = x2.2 := by
      apply enum_functional entries x.1 x.2 x2.2
      · exact (Prod.mk.eta ▸ hx1)
      · rw [hi]
        exact (Prod.mk.eta ▸ hx22)
    apply hkeys.1
    have : k = k2 := by rw [← hx2, hsame, hx23]
    rw [this]
    exact hk2

lemma mem_allPairs (entries : List QEntry) (i j : ℕ) (a b : QEntry)
    (ha : (i, a) ∈ entries.enum) (hb : (j, b) ∈ entries.enum)
    (hij : i < j) (hk : bkey a = bkey b) :
    ((i, a), (j, b)) ∈ allPairs entries := by
  unfold allPairs bucketsOf
  refine List.mem_flatMap.mpr ⟨bucketFor entries (bkey a), ?_, ?_⟩
  · refine List.mem_map.mpr ⟨bkey a, ?_, rfl⟩
    refine (mem_firstDedup _ _).mpr ?_
    refine List.mem_map.mpr ⟨a, ?_, rfl⟩
    exact List.getElem?_mem (List.mem_enum_iff_getElem?.mp ha)
  · refine mem_orderedPairs_of_lt _ (bucketFor_pairwise entries (bkey a)) _ _ ?_ ?_ hij
    · exact (mem_bucketFor entries (bkey a) (i, a)).mpr ⟨ha, rfl⟩
    · exact (mem_bucketFor entries (bkey a) (j, b)).mpr ⟨hb, hk.symm⟩

/-- Claim C6: for every pair of entries compared within a bucket (same bucket
key, positions `i < j`), the pair is reported as a near-duplicate iff the
similarity ratio of their normalized texts is at least the threshold and the
normalized texts are not identical; and each unordered index pair appears at
most once in the output.  The similarity function is abstract, constrained
only to value a comparison against the empty normalized text below the
threshold (true of the source's ratio, which gives 0 there, at any positive
threshold such as the default 0.92). -/
theorem c6_near_duplicate_iff_and_unique (t : ℚ) (r : String → String → ℚ) (entries : List QEntry)
    (hr : ∀ x : String, x ≠ "" → r "" x < t ∧ r x "" < t)
    (i j : ℕ) (a b : QEntry)
    (ha : (i, a) ∈ entries.enum) (hb : (j, b) ∈ entries.enum)
    (hij : i < j) (hk : bkey a = bkey b) :
    ((∃ rep ∈ near_duplicates t r entries, rep.idx_a = i ∧ rep.idx_b = j) ↔
      (t ≤ r a.norm_question b.norm_question ∧ a.norm_question ≠ b.norm_question)) ∧
    ((near_duplicates t r entries).map (fun rep => (rep.idx_a, rep.idx_b))).Nodup := by
  have hp : ((i, a), (j, b)) ∈ allPairs entries := mem_allPairs entries i j a b ha hb hij hk
  rw [near_duplicates_eq_scan]
  constructor
  · constructor
    · rintro ⟨rep, hrep, hia, hib⟩
      rcases scan_out_source t r (allPairs entries) _ rep hrep with h2 | ⟨q, hq, he, hd⟩
      · cases h2
      · have hpe : pairOf q = pairOf ((i, a), (j, b)) := by
          rw [← he, hia, hib]
          rfl
        have : q = ((i, a), (j, b)) :=
          List.inj_on_of_nodup_map (allPairs_nodup entries) hq hp hpe
        subst this
        exact hd.2
    · intro hcond
      have hd : scanDecision t r ((i, a), (j, b)) := by
        refine ⟨?_, hcond⟩
        rintro (he | he)
        · by_cases hbn : b.norm_question = ""
          · exact hcond.2 (he.trans hbn.symm)
          · have := (hr b.norm_question hbn).1
            rw [← he] at this
            exact absurd hcond.1 (by exact not_le.mpr this)
        · by_cases han : a.norm_question = ""
          · exact hcond.2 (han.trans he.symm)
          · have := (hr a.norm_question han).2
            rw [← he] at this
            exact absurd hcond.1 (by exact not_le.mpr this)
      rcases scan_reported t r (allPairs entries) { seen := [], out := [] }
        (allPairs_nodup entries) (by intro q hq h; cases h) _ hp hd with ⟨rep, hrep, he⟩
      refine ⟨rep, hrep, ?_, ?_⟩
      · exact congrArg Prod.fst he
      · exact congrArg Prod.snd he
  · exact scan_nodup t r (allPairs entries) _ (by intro rep h; cases h) List.nodup_nil

theorem c6_near_duplicate_iff_and_unique_witness :
    (∃ rep ∈ near_duplicates (1/2) rW entriesN, rep.idx_a = 0 ∧ rep.idx_b = 1) ∧
    ((near_duplicates (1/2) rW entriesN).map (fun rep => (rep.idx_a, rep.idx_b))).Nodup := by
  have h := c6_near_duplicate_iff_and_unique (1/2) rW entriesN
    (by
      intro x hx
      constructor <;> · rw [rW]; norm_num)
    0 1 eN1 eN2 (by decide) (by decide) (by decide) (by decide)
  refine ⟨h.1.mpr ⟨?_, by decide⟩, h.2⟩
  show (1 : ℚ)/2 ≤ rW "alpha one" "alpha two"
  rw [rW]
  rw [if_neg (by decide)]
  norm_num

lemma forall₂_mem_left {α β : Type} {R : α → β → Prop} {l1 : List α} {l2 : List β}
    (h : List.Forall₂ R l1 l2) : ∀ a ∈ l1, ∃ b ∈ l2, R a b := by
  induction h with
  | nil => intro a ha; cases ha
  | cons hr _ ih =>
    intro a ha
    rcases List.mem_cons.mp ha with rfl | ha2
    · exact ⟨_, List.mem_cons_self _ _, hr⟩
    · rcases ih a ha2 with ⟨b, hb, hrb⟩
      exact ⟨b, List.mem_cons_of_mem _ hb, hrb⟩

lemma forall₂_refl_of {α : Type} {R : α → α → Prop} (hr : ∀ a, R a a) (l : List α) :
    List.Forall₂ R l l := by
  induction l with
  | nil => exact List.Forall₂.nil
  | cons a l ih => exact List.Forall₂.cons (hr a) ih

lemma forall₂_trans_of {α : Type} {R : α → α → Prop}
    (hr : ∀ a b c, R a b → R b c → R a c) :
    ∀ {l1 l2 l3 : List α}, List.Forall₂ R l1 l2 → List.Forall₂ R l2 l3 →
      List.Forall₂ R l1 l3 := by
  intro l1 l2 l3 h12 h23
  induction h12 generalizing l3 with
  | nil => cases h23; exact List.Forall₂.nil
  | cons hab h ih =>
    cases h23 with
    | cons hbc h2 => exact List.Forall₂.cons (hr _ _ _ hab hbc) (ih h2)

lemma subErased_refl (s : Subcategory) : SubErased s s :=
  ⟨rfl, List.Sublist.refl _⟩

lemma subErased_trans {s1 s2 s3 : Subcategory} (h12 : SubErased s1 s2)
    (h23 : SubErased s2 s3) : SubErased s1 s3 :=
  ⟨h12.1.trans h23.1, h12.2.trans h23.2⟩

lemma docErased_refl (d : TopicDoc) : DocErased d d :=
  forall₂_refl_of subErased_refl _

lemma docErased_trans {d1 d2 d3 : TopicDoc} (h12 : DocErased d1 d2)
    (h23 : DocErased d2 d3) : DocErased d1 d3 :=
  forall₂_trans_of (R := SubErased) (fun _ _ _ hab hbc => subErased_trans hab hbc) h12 h23

lemma corpusErased_refl (c : Corpus) : CorpusErased c c :=
  forall₂_refl_of (fun t => ⟨rfl, docErased_refl t.doc⟩) c

lemma corpusErased_trans {c1 c2 c3 : Corpus} (h12 : CorpusErased c1 c2)
    (h23 : CorpusErased c2 c3) : CorpusErased c1 c3 :=
  forall₂_trans_of
    (fun _ _ _ hab hbc => ⟨hab.1.trans hbc.1, docErased_trans hab.2 hbc.2⟩) h12 h23

lemma qlistOf_set (s : Subcategory) (qs : List Question) :
    qlistOf { s with questions := s.questions.set qs } = qs := by
  cases h : s.questions <;> simp [qlistOf, iterate_subcategory_questions, QuestionsField.set, h]

lemma docErased_updateSub (d : TopicDoc) (sid : String)
    (g : Subcategory → Subcategory) (hg : ∀ s, SubErased (g s) s) :
    DocErased (updateSub d sid g) d := by
  unfold updateSub DocErased
  cases hf : d.subcategories.findIdx? (fun s => s.id == sid) with
  | none => exact forall₂_refl_of subErased_refl _
  | some i =>
    dsimp only
    clear hf
    induction d.subcategories generalizing i with
    | nil =>
      have he : List.modify g i ([] : List Subcategory) = [] := by cases i <;> rfl
      rw [he]
      exact List.Forall₂.nil
    | cons s rest ih =>
      cases i with
      | zero =>
        have he : List.modify g 0 (s :: rest) = g s :: rest := by simp [List.modify]
        rw [he]
        exact List.Forall₂.cons (hg s) (forall₂_refl_of subErased_refl _)
      | succ n =>
        have he : List.modify g (n + 1) (s :: rest) = s :: List.modify g n rest := by
          simp [List.modify]
        rw [he]
        exact List.Forall₂.cons (subErased_refl s) (ih n)

lemma corpusErased_updateTopic (c : Corpus) (tid : String) (f : TopicDoc → TopicDoc)
    (hf : ∀ d, DocErased (f d) d) : CorpusErased (updateTopic c tid f) c := by
  induction c with
  | nil => exact List.Forall₂.nil
  | cons t rest ih =>
    unfold updateTopic
    by_cases ht : t.topic_id = tid
    · rw [if_pos ht]
      exact List.Forall₂.cons ⟨rfl, hf t.doc⟩ (corpusErased_refl rest)
    · rw [if_neg ht]
      exact List.Forall₂.cons ⟨rfl, docErased_refl t.doc⟩ ih

lemma corpusErased_reconStep (norms : List (String × String)) (st : ReconState)
    (a : ActionRec) : CorpusErased (reconStep norms st a).corpus st.corpus := by
  unfold reconStep
  split
  · exact corpusErased_refl _
  · split
    · exact corpusErased_refl _
    · split
      · exact corpusErased_refl _
      · split
        · exact corpusErased_refl _
        · split
          · exact corpusErased_refl _
          · refine corpusErased_updateTopic _ _ _ (fun d => docErased_updateSub _ _ _ ?_)
            intro s
            refine ⟨rfl, ?_⟩
            rw [qlistOf_set s]
            exact List.eraseIdx_sublist _ _

lemma corpusErased_reconcile_fold (norms : List (String × String))
    (acts : List ActionRec) (st : ReconState) :
    CorpusErased (acts.foldl (reconStep norms) st).corpus st.corpus := by
  induction acts generalizing st with
  | nil => exact corpusErased_refl _
  | cons a as ih =>
    rw [List.foldl_cons]
    exact corpusErased_trans (ih _) (corpusErased_reconStep norms st a)

lemma find?_topic_erased {c2 c1 : Corpus} (h : CorpusErased c2 c1) (tid : String) :
    (c2.find? (fun t => t.topic_id == tid) = none ∧
      c1.find? (fun t => t.topic_id == tid) = none) ∨
    (∃ t2 t1, c2.find? (fun t => t.topic_id == tid) = some t2 ∧
      c1.find? (fun t => t.topic_id == tid) = some t1 ∧
      t2.topic_id = t1.topic_id ∧ DocErased t2.doc t1.doc) := by
  induction h with
  | nil => exact Or.inl ⟨rfl, rfl⟩
  | cons hr hrest ih =>
    rename_i t2 t1 l2 l1
    by_cases ht : t1.topic_id = tid
    · refine Or.inr ⟨t2, t1, ?_, ?_, hr.1, hr.2⟩
      · exact List.find?_cons_of_pos _ (by simp [hr.1, ht])
      · exact List.find?_cons_of_pos _ (by simp [ht])
    · have ht2 : ¬ t2.topic_id = tid := by rw [hr.1]; exact ht
      rw [List.find?_cons_of_neg _ (by simp [ht2]), List.find?_cons_of_neg _ (by simp [ht])]
      exact ih

lemma find?_sub_forall₂ {l2 l1 : List Subcategory}
    (h : List.Forall₂ SubErased l2 l1) (sid : String) :
    (l2.find? (fun s => s.id == sid) = none ∧
      l1.find? (fun s => s.id == sid) = none) ∨
    (∃ s2 s1, l2.find? (fun s => s.id == sid) = some s2 ∧
      l1.find? (fun s => s.id == sid) = some s1 ∧ SubErased s2 s1) := by
  induction h with
  | nil => exact Or.inl ⟨rfl, rfl⟩
  | cons hr hrest ih =>
    rename_i s2 s1 l2 l1
    by_cases hs : s1.id = sid
    · refine Or.inr ⟨s2, s1, ?_, ?_, hr⟩
      · exact List.find?_cons_of_pos _ (by simp [hr.1, hs])
      · exact List.find?_cons_of_pos _ (by simp [hs])
    · have hs2 : ¬ s2.id = sid := by rw [hr.1]; exact hs
      rw [List.find?_cons_of_neg _ (by simp [hs2]), List.find?_cons_of_neg _ (by simp [hs])]
      exact ih

lemma find?_sub_erased {d2 d1 : TopicDoc} (h : DocErased d2 d1) (sid : String) :
    (d2.subcategories.find? (fun s => s.id == sid) = none ∧
      d1.subcategories.find? (fun s => s.id == sid) = none) ∨
    (∃ s2 s1, d2.subcategories.find? (fun s => s.id == sid) = some s2 ∧
      d1.subcategories.find? (fun s => s.id == sid) = some s1 ∧ SubErased s2 s1) :=
  find?_sub_forall₂ h sid

lemma subQuestions_erased {c2 c1 : Corpus} (h : CorpusErased c2 c1)
    (tid sid : String) :
    List.Sublist (subQuestions c2 tid sid) (subQuestions c1 tid sid) := by
  unfold subQuestions
  rcases find?_topic_erased h tid with ⟨h2, h1⟩ | ⟨t2, t1, h2, h1, _, hd⟩
  · rw [h2, h1]
  · rw [h2, h1]
    dsimp only
    rcases find?_sub_erased hd sid with ⟨g2, g1⟩ | ⟨s2, s1, g2, g1, hs⟩
    · rw [g2, g1]
    · rw [g2, g1]
      exact hs.2

lemma uniqueIds_mono {c2 c1 : Corpus} (h : CorpusErased c2 c1) (hq : UniqueIds c1) :
    UniqueIds c2 := by
  intro t2 ht2 s2 hs2
  rcases forall₂_mem_left h t2 ht2 with ⟨t1, ht1, _, hd⟩
  rcases forall₂_mem_left hd s2 hs2 with ⟨s1, hs1, hse⟩
  exact (hq t1 ht1 s1 hs1).sublist (hse.2.map _)

lemma goodAfter_mono {norms : List (String × String)} {c2 c1 : Corpus}
    (h : CorpusErased c2 c1) {a : ActionRec} (hg : GoodAfter norms c1 a) :
    GoodAfter norms c2 a := by
  intro q hq hid
  exact hg q ((subQuestions_erased h _ _).mem hq) hid

lemma recon_norms_erased {c2 c1 : Corpus} (h : CorpusErased c2 c1) (tid : String) :
    ∀ x ∈ tgtNormsOf (recon_norms c2) tid, x ∈ tgtNormsOf (recon_norms c1) tid := by
  intro x hx
  unfold tgtNormsOf at hx ⊢
  rcases List.mem_map.mp hx with ⟨p, hp, rfl⟩
  rcases List.mem_filter.mp hp with ⟨hp1, hp2⟩
  unfold recon_norms at hp1
  rcases List.mem_flatMap.mp hp1 with ⟨t2, ht2, hp3⟩
  rcases List.mem_flatMap.mp hp3 with ⟨s2, hs2, hp4⟩
  rcases List.mem_map.mp hp4 with ⟨q, hq, he⟩
  rcases forall₂_mem_left h t2 ht2 with ⟨t1, ht1, hteq, hd⟩
  rcases forall₂_mem_left hd s2 hs2 with ⟨s1, hs1, hse⟩
  refine List.mem_map.mpr ⟨p, List.mem_filter.mpr ⟨?_, ?_⟩, rfl⟩
  · unfold recon_norms
    refine List.mem_flatMap.mpr ⟨t1, ht1, List.mem_flatMap.mpr ⟨s1, hs1, ?_⟩⟩
    refine List.mem_map.mpr ⟨q, hse.2.mem hq, ?_⟩
    rw [← he, hteq]
  · exact hp2

lemma reconcileFindIdx_none_iff (qs : List Question) (qid : String)
    (tn : List String) :
    reconcileFindIdx qs qid tn = none ↔
      ∀ q ∈ qs, ¬(stripStr q.id = qid ∧
        (normalizeStr q.question ≠ "" ∧ normalizeStr q.question ∈ tn)) := by
  unfold reconcileFindIdx
  rw [Option.map_eq_none']
  rw [List.find?_eq_none]
  constructor
  · intro h q hq hcon
    rcases List.mem_iff_getElem?.mp hq with ⟨n, hn⟩
    have hmem : (n, q) ∈ qs.enum := List.mem_enum_iff_getElem?.mpr hn
    refine h (n, q) hmem ?_
    simp only [Bool.and_eq_true, decide_eq_true_eq]
    exact ⟨hcon.1, hcon.2⟩
  · intro h x hx
    have hq : x.2 ∈ qs := List.getElem?_mem (List.mem_enum_iff_getElem?.mp hx)
    intro hp
    simp only [Bool.and_eq_true, decide_eq_true_eq] at hp
    exact h x.2 hq ⟨hp.1, hp.2⟩

lemma reconcileFindIdx_some (qs : List Question) (qid : String) (tn : List String)
    (i : ℕ) (h : reconcileFindIdx qs qid tn = some i) :
    ∃ q, qs[i]? = some q ∧ stripStr q.id = qid ∧
      normalizeStr q.question ≠ "" ∧ normalizeStr q.question ∈ tn := by
  unfold reconcileFindIdx at h
  cases hf : qs.enum.find? (fun p =>
      decide (stripStr p.2.id = qid) &&
        (let norm := normalizeStr p.2.question
         decide (norm ≠ "" ∧ norm ∈ tn))) with
  | none => rw [hf] at h; cases h
  | some x =>
    rw [hf] at h
    have hi : x.1 = i := Option.some.inj h
    have hp := List.find?_some hf
    have hmem := List.mem_of_find?_eq_some hf
    simp only [Bool.and_eq_true, decide_eq_true_eq] at hp
    refine ⟨x.2, ?_, hp.1, hp.2.1, hp.2.2⟩
    rw [← hi]
    exact List.mem_enum_iff_getElem?.mp hmem

lemma not_mem_eraseIdx_self {α : Type} {l : List α} (hnd : l.Nodup) :
    ∀ (i : ℕ) (a : α), l[i]? = some a → a ∉ l.eraseIdx i := by
  induction l with
  | nil => intro i a h; cases h
  | cons b l ih =>
    intro i a h
    rw [List.nodup_cons] at hnd
    cases i with
    | zero =>
      rw [List.getElem?_cons_zero] at h
      rcases Option.some.inj h with rfl
      rw [List.eraseIdx_cons_zero]
      exact hnd.1
    | succ n =>
      rw [List.getElem?_cons_succ] at h
      rw [List.eraseIdx_cons_succ]
      intro hmem
      rcases List.mem_cons.mp hmem with rfl | hmem2
      · exact hnd.1 (List.getElem?_mem h)
      · exact ih hnd.2 n a h hmem2

lemma find?_updateTopic_self (c : Corpus) (tid : String) (f : TopicDoc → TopicDoc)
    (t : TopicEntry) (ht : c.find? (fun x => x.topic_id == tid) = some t) :
    (updateTopic c tid f).find? (fun x => x.topic_id == tid) =
      some { t with doc := f t.doc } := by
  induction c with
  | nil => cases ht
  | cons t0 rest ih =>
    by_cases h0 : t0.topic_id = tid
    · rw [List.find?_cons_of_pos _ (by simp [h0])] at ht
      rcases Option.some.inj ht with rfl
      unfold updateTopic
      rw [if_pos h0]
      exact List.find?_cons_of_pos _ (by simp [h0])
    · rw [List.find?_cons_of_neg _ (by simp [h0])] at ht
      unfold updateTopic
      rw [if_neg h0]
      rw [List.find?_cons_of_neg _ (by simp [h0])]
      exact ih ht

lemma find?_modify (l : List Subcategory) (sid : String) (g : Subcategory → Subcategory)
    (hid : ∀ x, (g x).id = x.id) :
    ∀ (i : ℕ) (s : Subcategory), l.find? (fun x => x.id == sid) = some s →
      l.findIdx? (fun x => x.id == sid) = some i →
      (l.modify g i).find? (fun x => x.id == sid) = some (g s) := by
  induction l with
  | nil => intro i s hf; cases hf
  | cons a rest ih =>
    intro i s hf hi
    by_cases pa : a.id = sid
    · rw [List.find?_cons_of_pos _ (by simp [pa])] at hf
      rcases Option.some.inj hf with rfl
      rw [List.findIdx?_cons, if_pos (by simp [pa])] at hi
      rcases Option.some.inj hi with rfl
      have he : List.modify g 0 (a :: rest) = g a :: rest := by simp [List.modify]
      rw [he]
      exact List.find?_cons_of_pos _ (by simp [hid, pa])
    · rw [List.find?_cons_of_neg _ (by simp [pa])] at hf
      rw [List.findIdx?_cons, if_neg (by simp [pa]), List.findIdx?_succ] at hi
      cases hrest : List.findIdx? (fun x => x.id == sid) rest 0 with
      | none => rw [hrest] at hi; cases hi
      | some n =>
        rw [hrest] at hi
        simp only [Option.map_some'] at hi
        rcases Option.some.inj hi with rfl
        have he : List.modify g (n + 1) (a :: rest) = a :: List.modify g n rest := by
          simp [List.modify]
        rw [he]
        rw [List.find?_cons_of_neg _ (by simp [pa])]
        exact ih n s hf hrest

lemma find?_updateSub_self (d : TopicDoc) (sid : String) (g : Subcategory → Subcategory)
    (hid : ∀ x, (g x).id = x.id) (s : Subcategory)
    (hs : d.subcategories.find? (fun x => x.id == sid) = some s) :
    (updateSub d sid g).subcategories.find? (fun x => x.id == sid) = some (g s) := by
  unfold updateSub
  cases hi : d.subcategories.findIdx? (fun x => x.id == sid) with
  | none =>
    exfalso
    have hall := List.findIdx?_eq_none_iff.mp hi
    have := hall s (List.mem_of_find?_eq_some hs)
    rw [List.find?_some hs] at this
    cases this
  | some i =>
    dsimp only
    exact find?_modify d.subcategories sid g hid i s hs hi

lemma subQuestions_found (c : Corpus) (tid sid : String) (t : TopicEntry)
    (sub : Subcategory) (ht : c.find? (fun x => x.topic_id == tid) = some t)
    (hs : t.doc.subcategories.find? (fun x => x.id == sid) = some sub) :
    subQuestions c tid sid = qlistOf sub := by
  unfold subQuestions
  rw [ht]
  dsimp only
  rw [hs]

lemma reconStep_goodAfter (norms : List (String × String)) (st : ReconState)
    (a : ActionRec) (hq : UniqueIds st.corpus) (hg : GuardsOk a) :
    GoodAfter norms (reconStep norms st a).corpus a := by
  unfold reconStep
  rw [if_neg (not_not_intro hg.1), if_neg hg.2]
  cases ht : st.corpus.find? (fun t => t.topic_id == a.source_topic) with
  | none =>
    intro q hqm
    unfold subQuestions at hqm
    rw [ht] at hqm
    cases hqm
  | some t =>
    dsimp only
    cases hs : t.doc.subcategories.find? (fun s => s.id == a.source_subcategory) with
    | none =>
      intro q hqm
      unfold subQuestions at hqm
      rw [ht] at hqm
      dsimp only at hqm
      rw [hs] at hqm
      cases hqm
    | some sub =>
      dsimp only
      cases hf : reconcileFindIdx (qlistOf sub) a.question_id
          (tgtNormsOf norms a.target_topic) with
      | none =>
        dsimp only
        intro q hqm hqid
        rw [subQuestions_found st.corpus _ _ t sub ht hs] at hqm
        have := (reconcileFindIdx_none_iff _ _ _).mp hf q hqm
        by_cases hn : normalizeStr q.question = ""
        · exact Or.inl hn
        · refine Or.inr (fun hmem => this ⟨hqid, hn, hmem⟩)
      | some i =>
        dsimp only
        intro q hqm hqid
        exfalso
        rcases reconcileFindIdx_some _ _ _ i hf with ⟨qi, hqi, hqiid, _, _⟩
        have hupd : subQuestions
            (updateTopic st.corpus a.source_topic (fun d =>
              updateSub d a.source_subcategory (fun s =>
                { s with questions := s.questions.set ((qlistOf s).eraseIdx i) })))
            a.source_topic a.source_subcategory =
            (qlistOf sub).eraseIdx i := by
          have h1 := find?_updateTopic_self st.corpus a.source_topic
            (fun d => updateSub d a.source_subcategory (fun s =>
              { s with questions := s.questions.set ((qlistOf s).eraseIdx i) })) t ht
          have h2 := find?_updateSub_self t.doc a.source_subcategory
            (fun s => { s with questions := s.questions.set ((qlistOf s).eraseIdx i) })
            (fun x => rfl) sub hs
          rw [subQuestions_found _ _ _ _ _ h1 h2, qlistOf_set]
        rw [hupd] at hqm
        have hnd : ((qlistOf sub).map (fun q => stripStr q.id)).Nodup :=
          hq t (List.mem_of_find?_eq_some ht) sub (List.mem_of_find?_eq_some hs)
        have hqmem : q ∈ qlistOf sub := (List.eraseIdx_sublist _ _).mem hqm
        have hqimem : qi ∈ qlistOf sub := List.getElem?_mem hqi
        have : q = qi :=
          List.inj_on_of_nodup_map hnd hqmem hqimem (by rw [hqid, hqiid])
        subst this
        exact not_mem_eraseIdx_self (List.Nodup.of_map _ hnd) i q hqi hqm

lemma reconcile_fold_goodAfter (norms : List (String × String))
    (acts : List ActionRec) (st : ReconState) (hq : UniqueIds st.corpus) :
    ∀ a ∈ acts, GuardsOk a →
      GoodAfter norms (acts.foldl (reconStep norms) st).corpus a := by
  induction acts generalizing st with
  | nil => intro a ha; cases ha
  | cons a as ih =>
    intro b hb hgb
    rw [List.foldl_cons]
    rcases List.mem_cons.mp hb with rfl | hb2
    · exact goodAfter_mono (corpusErased_reconcile_fold norms as _)
        (reconStep_goodAfter norms st b hq hgb)
    · exact ih _ (uniqueIds_mono (corpusErased_reconStep norms st a) hq) b hb2 hgb

lemma reconStep_noop (norms norms0 : List (String × String)) (c : Corpus)
    (n : ℕ) (ch : List String) (a : ActionRec)
    (hsub : ∀ tid x, x ∈ tgtNormsOf norms tid → x ∈ tgtNormsOf norms0 tid)
    (hgood : GuardsOk a → GoodAfter norms0 c a) :
    reconStep norms { corpus := c, removed := n, changedTopics := ch } a =
      { corpus := c, removed := n, changedTopics := ch } := by
  unfold reconStep
  by_cases h1 : ¬(a.action = "move_to_target" ∨ a.action = "remove_source_duplicate")
  · rw [if_pos h1]
  · rw [if_neg h1]
    by_cases h2 : a.source_topic = "" ∨ a.source_subcategory = "" ∨
        a.target_topic = "" ∨ a.question_id = ""
    · rw [if_pos h2]
    · rw [if_neg h2]
      have hga : GuardsOk a := ⟨not_not.mp h1, h2⟩
      have hgd := hgood hga
      cases ht : List.find? (fun t => t.topic_id == a.source_topic) c with
      | none => rfl
      | some t =>
        dsimp only
        cases hs : t.doc.subcategories.find? (fun s => s.id == a.source_subcategory) with
        | none => rfl
        | some sub =>
          dsimp only
          have hnone : reconcileFindIdx (qlistOf sub) a.question_id
              (tgtNormsOf norms a.target_topic) = none := by
            rw [reconcileFindIdx_none_iff]
            intro q hqm hcon
            have hq2 : q ∈ subQuestions c a.source_topic a.source_subcategory := by
              rw [subQuestions_found c _ _ t sub ht hs]
              exact hqm
            rcases hgd q hq2 hcon.1 with he | hne
            · exact hcon.2.1 he
            · exact hne (hsub _ _ hcon.2.2)
          rw [hnone]

lemma reconcile_fold_noop (norms : List (String × String)) (acts : List ActionRec)
    (st : ReconState)
    (hstep : ∀ a ∈ acts, reconStep norms st a = st) :
    acts.foldl (reconStep norms) st = st := by
  induction acts with
  | nil => rfl
  | cons a as ih =>
    rw [List.foldl_cons, hstep a (List.mem_cons_self _ _)]
    exact ih (fun b hb => hstep b (List.mem_cons_of_mem _ hb))

/-- Claim C4 counterexample: on a corpus with a duplicated question id (the
same id and text twice in one source subcategory, the text also present at
the target topic), the first Reconciler run removes one copy and a second run
on the resulting corpus with the same batch-result artifact removes the other
— the second invocation reports `removed_leftovers = 1`, not `0`, and changes
the source topic document again, refuting the claim as stated for every
corpus. -/
theorem c4_counterexample_duplicate_ids_second_run_removes :
    reconDup1.removed = 1 ∧ reconDup2.removed = 1 ∧ reconDup2.removed ≠ 0 ∧
    reconDup2.corpus ≠ reconDup1.corpus := by
  refine ⟨by decide, by decide, by decide, by decide⟩

/-- Claim C4 amended: the Reconciler is idempotent provided every
subcategory's question list carries pairwise-distinct (stripped) question
ids.  Under that precondition, running it a second time on the resulting
corpus with the same batch-result actions removes nothing
(`removed_leftovers = 0`), changes no topic document, and marks no topic
changed.  (Without the precondition the claim fails, see the
counterexample.) -/
theorem c4_reconciler_idempotent_unique_ids (c : Corpus) (actions : List ActionRec)
    (hq : UniqueIds c) :
    (reconcile_run (reconcile_run c actions).corpus actions).removed = 0 ∧
    (reconcile_run (reconcile_run c actions).corpus actions).corpus =
      (reconcile_run c actions).corpus ∧
    (reconcile_run (reconcile_run c actions).corpus actions).changedTopics = [] := by
  have herased : CorpusErased (reconcile_run c actions).corpus c :=
    corpusErased_reconcile_fold (recon_norms c) actions _
  have hgood : ∀ a ∈ actions, GuardsOk a →
      GoodAfter (recon_norms c) (reconcile_run c actions).corpus a :=
    reconcile_fold_goodAfter (recon_norms c) actions _ hq
  have hsub : ∀ tid x,
      x ∈ tgtNormsOf (recon_norms (reconcile_run c actions).corpus) tid →
        x ∈ tgtNormsOf (recon_norms c) tid :=
    fun tid x hx => recon_norms_erased herased tid x hx
  have hfold : reconcile_run (reconcile_run c actions).corpus actions =
      { corpus := (reconcile_run c actions).corpus, removed := 0,
        changedTopics := [] } := by
    unfold reconcile_run
    refine reconcile_fold_noop _ _ _ ?_
    intro a ha
    exact reconStep_noop _ _ _ _ _ a hsub (fun hga => hgood a ha hga)
  rw [hfold]
  exact ⟨rfl, rfl, rfl⟩

theorem c4_reconciler_idempotent_unique_ids_witness :
    UniqueIds corpusDrift ∧
    (reconcile_run (reconcile_run corpusDrift [actDup]).corpus [actDup]).removed = 0 := by
  have hq : UniqueIds corpusDrift := by
    unfold UniqueIds
    decide
  exact ⟨hq, (c4_reconciler_idempotent_unique_ids corpusDrift [actDup] hq).1⟩

/-- Witness for C3 amended at a concrete corpus: the augmented-membership
conclusion and the duplicate classification, each with its hypotheses
discharged by evaluation. -/
theorem c3_amended_membership_augmented_witness :
    ("procurement_act", normalizeStr itemS1.question) ∈
      (processItem (fun _ _ => true) 4 false true (question_lookup corpusSnapshot)
        (topic_to_file corpusSnapshot)
        { corpus := corpusSnapshot, norms := norms_init corpusSnapshot, actions := [],
          changed := [] } itemS1).norms ∧
    (processItem (fun _ _ => true) 4 false true (question_lookup corpusSnapshot)
        (topic_to_file corpusSnapshot)
        { corpus := corpusSnapshot, norms := [("procurement_act", "alpha one")],
          actions := [], changed := [] } itemS2).actions =
      [] ++
        [{ action := "remove_source_duplicate", question_id := itemS2.question_id,
           source_topic := itemS2.source_topic,
           source_subcategory := itemS2.source_subcategory,
           target_topic := itemS2.suggested_target_topic,
           reason := "equivalent_exists_in_target_topic" }] := by
  constructor
  · exact (c3_amended_membership_augmented (fun _ _ => true) 4 false
      (question_lookup corpusSnapshot) (topic_to_file corpusSnapshot)
      { corpus := corpusSnapshot, norms := norms_init corpusSnapshot, actions := [],
        changed := [] } itemS1
      { file := "fa", index := 0, nested := false, sub_id := "s1", question := qX1,
        norm := "alpha one" }
      (by decide) (by decide) (by decide) (by decide)).2
      (by decide) (by decide) (by decide) (by decide)
  · exact (c3_amended_membership_augmented (fun _ _ => true) 4 false
      (question_lookup corpusSnapshot) (topic_to_file corpusSnapshot)
      { corpus := corpusSnapshot, norms := [("procurement_act", "alpha one")],
        actions := [], changed := [] } itemS2
      { file := "fa", index := 0, nested := false, sub_id := "s2", question := qX2,
        norm := "alpha one" }
      (by decide) (by decide) (by decide) (by decide)).1
      true (by decide) (by decide)

/-- Witness for C10 at a concrete dry run: the single recorded action of the
divergence corpus satisfies the universal conclusion. -/
theorem c10_dry_run_never_skipped_move_failed_witness :
    ({ action := "move_to_target", question_id := "q1", source_topic := "a_src",
       source_subcategory := "s1", target_topic := "procurement_act",
       reason := "high_confidence_signal_matched" } : ActionRec).action =
        "move_to_target" ∨
    ({ action := "move_to_target", question_id := "q1", source_topic := "a_src",
       source_subcategory := "s1", target_topic := "procurement_act",
       reason := "high_confidence_signal_matched" } : ActionRec).action =
        "remove_source_duplicate" :=
  c10_dry_run_never_skipped_move_failed.1 (fun _ _ => true) 4 false corpusDivergence
    [itemM1] _ (by decide)

end PromoCBT
